import Mathlib

/-!
Verification of the agent-pipeline core of a claims triage system.

The development shallowly embeds the Python agents
(`backend/agents/classifier.py`, `risk_scorer.py`, `router.py`,
`decision_support.py`, `compliance.py`, `orchestrator.py`) and the
configuration defaults (`backend/core/config.py`).  Numeric values
(scores, confidences, seconds) are modelled as rationals, Python strings
as Lean strings, Python dicts with fixed key sets as structures, and
Python dicts used as ordered tables as association lists in source
(insertion) order.
-/

namespace ClaimsTriage

/-- A single quote character, used inside embedded Python string literals. -/
def sq : String := String.singleton (Char.ofNat 39)

/-- `isPrefixOfChars n h` is true when the character list `n` is a prefix of `h`. -/
def isPrefixOfChars : List Char → List Char → Bool
  | [], _ => true
  | _ :: _, [] => false
  | a :: as, b :: bs => a == b && isPrefixOfChars as bs

/-- `infixOfChars n h` is true when `n` occurs contiguously inside `h`. -/
def infixOfChars (n : List Char) : List Char → Bool
  | [] => isPrefixOfChars n []
  | c :: t => isPrefixOfChars n (c :: t) || infixOfChars n t

/-- Python `needle in hay` for strings: substring containment. -/
def strContains (hay needle : String) : Bool :=
  infixOfChars needle.toList hay.toList

/-- Left-to-right, non-overlapping replacement of a non-empty pattern, one
character of input per step (`skip` counts pattern characters still to be
consumed after a match).  Mirrors Python `str.replace`. -/
def replaceAux (pat rep : List Char) : ℕ → List Char → List Char
  | _, [] => []
  | k + 1, _ :: rest => replaceAux pat rep k rest
  | 0, c :: rest =>
      if isPrefixOfChars pat (c :: rest) && !pat.isEmpty then
        rep ++ replaceAux pat rep (pat.length - 1) rest
      else
        c :: replaceAux pat rep 0 rest

/-- Python `s.replace(pat, rep)` for a non-empty `pat`. -/
def strReplace (s pat rep : String) : String :=
  String.mk (replaceAux pat.toList rep.toList 0 s.toList)

/-! ## Risk scorer: score to risk level (`risk_scorer.py:404-411`, `config.py`) -/

/-- `RiskLevel` enumeration from `backend/data/models.py`. -/
inductive RiskLevel where
  | low
  | medium
  | high
  | extreme
  deriving DecidableEq, Repr

/-- Default of `settings.risk_threshold_high` (`config.py`): 0.7. -/
def risk_threshold_high_default : ℚ := 7/10

/-- Default of `settings.risk_threshold_medium` (`config.py`): 0.4. -/
def risk_threshold_medium_default : ℚ := 2/5

/-- `RiskScorerAgent._score_to_risk_level`: high when the score reaches the
high threshold, else medium when it reaches the medium threshold, else low. -/
def score_to_risk_level (thHigh thMedium : ℚ) (risk_score : ℚ) : RiskLevel :=
  if risk_score ≥ thHigh then .high
  else if risk_score ≥ thMedium then .medium
  else .low

/-- **C2.** For every risk score `s`, the derived risk level is `high` iff
`s ≥ risk_threshold_high`, `medium` iff `risk_threshold_medium ≤ s < risk_threshold_high`,
and `low` otherwise (i.e. iff `s` is below both thresholds); the configured
defaults are 0.7 and 0.4 (`risk_threshold_high_default`,
`risk_threshold_medium_default`). -/
theorem risk_level_iff_thresholds (thHigh thMedium s : ℚ) :
    (score_to_risk_level thHigh thMedium s = .high ↔ s ≥ thHigh) ∧
    (score_to_risk_level thHigh thMedium s = .medium ↔ thMedium ≤ s ∧ s < thHigh) ∧
    (score_to_risk_level thHigh thMedium s = .low ↔ s < thMedium ∧ s < thHigh) := by
  unfold score_to_risk_level
  by_cases h1 : s ≥ thHigh <;> by_cases h2 : s ≥ thMedium <;>
    simp [h1, h2] <;>
    first
      | linarith
      | (constructor <;> linarith)

/-! ## Compliance agent: confidence (`compliance.py:320-333`) -/

/-- `ComplianceAgent._calculate_compliance_confidence`: base confidence 0.8,
minus 0.1 when PII was detected, minus an issue penalty of
`min(0.3, 0.05 * number_of_issues)`, clipped below at 0. -/
def calculate_compliance_confidence (pii_detected : Bool) (compliance_issues : List String) : ℚ :=
  let base : ℚ := 8/10
  let base := if pii_detected then base - 1/10 else base
  let issue_penalty : ℚ := min (3/10) ((compliance_issues.length : ℚ) * (5/100))
  max 0 (base - issue_penalty)

/-- The confidence formula stated by the claim: `max(0, min(1, 0.8 - 0.1·pii - 0.05·n))`. -/
def claim_compliance_confidence (pii_detected : Bool) (n : ℕ) : ℚ :=
  max 0 (min 1 (8/10 - (if pii_detected then 1/10 else 0) - (n : ℚ) * (5/100)))

/-- **C7 counterexample.** With PII detected and 7 compliance issues the code
yields confidence 0.4 (the per-issue penalty is capped at 0.3), while the
formula of the claim yields 0.35. -/
theorem compliance_confidence_claim_false :
    calculate_compliance_confidence true
        ["i1", "i2", "i3", "i4", "i5", "i6", "i7"] = 2/5 ∧
    claim_compliance_confidence true 7 = 7/20 ∧
    calculate_compliance_confidence true
        ["i1", "i2", "i3", "i4", "i5", "i6", "i7"] ≠
      claim_compliance_confidence true 7 := by
  refine ⟨?_, ?_, ?_⟩ <;> norm_num [calculate_compliance_confidence, claim_compliance_confidence]

/-- **C7 (amended).** The compliance confidence is
`max(0, 0.8 - 0.1·pii - min(0.3, 0.05·n))`: it agrees with the formula of the
claim whenever there are at most 6 compliance issues, and is constant at
`0.8 - 0.1·pii - 0.3` (the cap of the issue penalty) for 6 or more issues. -/
theorem compliance_confidence_capped (pii : Bool) (issues : List String) :
    (issues.length ≤ 6 →
      calculate_compliance_confidence pii issues =
        claim_compliance_confidence pii issues.length) ∧
    (6 ≤ issues.length →
      calculate_compliance_confidence pii issues =
        8/10 - (if pii then 1/10 else 0) - 3/10) := by
  constructor
  · intro h
    have hc : (issues.length : ℚ) ≤ 6 := by exact_mod_cast h
    have hmin : min (3/10 : ℚ) ((issues.length : ℚ) * (5/100)) =
        (issues.length : ℚ) * (5/100) := by
      rw [min_eq_right]; nlinarith
    have hmax : min (1 : ℚ)
        (8/10 - (if pii then 1/10 else 0) - (issues.length : ℚ) * (5/100)) =
        8/10 - (if pii then 1/10 else 0) - (issues.length : ℚ) * (5/100) := by
      rw [min_eq_right]; cases pii <;> simp <;> nlinarith
    unfold calculate_compliance_confidence claim_compliance_confidence
    rw [hmax, hmin]
    cases pii <;> simp
  · intro h
    have hc : (6 : ℚ) ≤ (issues.length : ℚ) := by exact_mod_cast h
    have hmin : min (3/10 : ℚ) ((issues.length : ℚ) * (5/100)) = 3/10 := by
      rw [min_eq_left]; nlinarith
    unfold calculate_compliance_confidence
    rw [hmin]
    cases pii <;> simp <;> norm_num

/-- Witness for `compliance_confidence_capped` at PII detected and 2 issues
(claim formula agrees) and at 7 issues (capped branch). -/
theorem compliance_confidence_capped_wit :
    calculate_compliance_confidence true ["a", "b"] =
        claim_compliance_confidence true 2 ∧
    calculate_compliance_confidence true
        ["i1", "i2", "i3", "i4", "i5", "i6", "i7"] = 8/10 - 1/10 - 3/10 := by
  constructor
  · exact (compliance_confidence_capped true ["a", "b"]).1 (by norm_num)
  · have := (compliance_confidence_capped true
      ["i1", "i2", "i3", "i4", "i5", "i6", "i7"]).2 (by norm_num)
    simpa using this

/-! ## Router agent: team catalogue and load updates (`router.py:83-119, 404-408`) -/

/-- An entry of `RouterAgent.team_capabilities`. -/
structure Team where
  case_types : List String
  max_risk_level : String
  capacity : ℤ
  current_load : ℤ
  sla_target_hours : ℕ
  deriving DecidableEq, Repr

/-- `RouterAgent.team_capabilities` (source order, initial loads 0). -/
def team_capabilities : List (String × Team) :=
  [("Tier-1",
    ⟨["insurance_claim", "healthcare_prior_auth", "bank_dispute"], "high", 100, 0, 2⟩),
   ("Tier-2",
    ⟨["insurance_claim", "healthcare_prior_auth"], "medium", 200, 0, 72⟩),
   ("Specialist",
    ⟨["legal_intake", "fraud_review", "healthcare_prior_auth"], "extreme", 50, 0, 48⟩),
   ("Fraud-Review",
    ⟨["fraud_review", "bank_dispute"], "extreme", 30, 0, 24⟩),
   ("Escalation",
    ⟨["insurance_claim", "healthcare_prior_auth", "bank_dispute", "legal_intake"],
     "extreme", 20, 0, 4⟩)]

/-- `RouterAgent.update_team_load`: when the team exists, add `load_change` to its
`current_load` and clamp the result below at 0.  There is no capacity check. -/
def update_team_load (teams : List (String × Team)) (team : String) (load_change : ℤ) :
    List (String × Team) :=
  teams.map fun p =>
    if p.1 = team then (p.1, { p.2 with current_load := max 0 (p.2.current_load + load_change) })
    else p

/-- Look up a team by name (first match), as Python dict access. -/
def find_team (teams : List (String × Team)) (name : String) : Option Team :=
  (teams.find? fun p => p.1 = name).map Prod.snd

/-- **C6 counterexample.** Starting from the initial catalogue, 21 consecutive
acquires (`update_team_load _ "Escalation" 1`) on the Escalation team
(capacity 20) drive `current_load` to 21 > capacity: no acquire is ever
refused, so `current_load ≤ capacity` is not an invariant. -/
theorem team_load_can_exceed_capacity :
    ∃ t : Team,
      find_team ((fun ts => update_team_load ts "Escalation" 1)^[21] team_capabilities)
          "Escalation" = some t ∧
      t.capacity = 20 ∧ t.current_load = 21 ∧ ¬ (t.current_load ≤ t.capacity) := by
  refine ⟨⟨["insurance_claim", "healthcare_prior_auth", "bank_dispute", "legal_intake"],
    "extreme", 20, 21, 4⟩, ?_, ?_, ?_, ?_⟩ <;> decide

/-- **C6 (amended).** `update_team_load` preserves the lower half of the
invariant: loads stay nonnegative (the update clamps at 0); the upper bound
`current_load ≤ capacity` is not enforced — an acquire at full capacity is
not refused (see `team_load_can_exceed_capacity`). -/
theorem update_team_load_nonneg (teams : List (String × Team)) (team : String)
    (load_change : ℤ) (h : ∀ p ∈ teams, 0 ≤ p.2.current_load) :
    ∀ p ∈ update_team_load teams team load_change, 0 ≤ p.2.current_load := by
  intro p hp
  unfold update_team_load at hp
  rcases List.mem_map.mp hp with ⟨q, hq, rfl⟩
  by_cases hqt : q.1 = team
  · simp [hqt]
  · simpa [hqt] using h q hq

/-- Witness for `update_team_load_nonneg`: a release on an empty Tier-1
leaves every load of the initial catalogue nonnegative. -/
theorem update_team_load_nonneg_wit :
    (update_team_load team_capabilities "Tier-1" (-1)).all
      (fun p => decide (0 ≤ p.2.current_load)) = true := by
  rw [List.all_eq_true]
  intro p hp
  rw [decide_eq_true_eq]
  exact update_team_load_nonneg team_capabilities "Tier-1" (-1) (by decide) p hp

/-! ## Orchestrator: circuit breaker (`orchestrator.py:48-128`) -/

/-- Default `self.circuit_breaker_threshold` (`orchestrator.py:59`). -/
def circuit_breaker_threshold : ℕ := 5

/-- Default `self.circuit_breaker_timeout` seconds (`orchestrator.py:60`). -/
def circuit_breaker_timeout : ℚ := 60

/-- The circuit-breaker state of an `AgentOrchestrator` instance. -/
structure OrchestratorState where
  failure_count : ℕ
  last_failure_time : Option ℚ
  circuit_open : Bool
  deriving DecidableEq, Repr

/-- State at construction (`orchestrator.py:63-65`). -/
def initial_orchestrator_state : OrchestratorState :=
  ⟨0, none, false⟩

/-- Whether the agent pipeline, once it runs, completes or raises. -/
inductive PipelineOutcome where
  | success
  | failure
  deriving DecidableEq, Repr

/-- Observable effect of one `run_triage` call. -/
structure TriageStep where
  state : OrchestratorState
  succeeded : Bool
  agents_invoked : Bool
  error_message : Option String
  deriving DecidableEq, Repr

/-- The `except` branch of `run_triage` (`orchestrator.py:110-117`): increment
`failure_count`, stamp `last_failure_time`, and open the breaker once the
count reaches the threshold. -/
def record_failure (s : OrchestratorState) (now : ℚ) : OrchestratorState :=
  let fc := s.failure_count + 1
  { failure_count := fc,
    last_failure_time := some now,
    circuit_open := if fc ≥ circuit_breaker_threshold then true else s.circuit_open }

/-- The pipeline part of `run_triage` after the breaker check
(`orchestrator.py:91-128`): on success reset the failure count, on any
exception fall into the `except` branch. -/
def run_pipeline (s : OrchestratorState) (now : ℚ) (outcome : PipelineOutcome) : TriageStep :=
  match outcome with
  | .success =>
      ⟨{ s with failure_count := 0 }, true, true, none⟩
  | .failure =>
      ⟨record_failure s now, false, true, some "pipeline error"⟩

/-- `AgentOrchestrator.run_triage` as a step function on the breaker state.
`now` is the value of `time.time()`; `outcome` tells how the agent pipeline
would end if it were invoked.  While the breaker is open and the timeout has
not elapsed since the last failure, the call raises
`Exception("Circuit breaker is open")`, which the `except` branch turns into a
failed result without invoking any agent (and which itself re-stamps
`last_failure_time`).  Once the timeout has elapsed, the breaker is closed,
the count reset, and the pipeline runs.  (With `circuit_open` and
`last_failure_time = None` — unreachable from the initial state — the Python
subtraction raises a `TypeError`, again caught by the `except` branch.) -/
def run_triage (s : OrchestratorState) (now : ℚ) (outcome : PipelineOutcome) : TriageStep :=
  if s.circuit_open then
    match s.last_failure_time with
    | some t =>
        if now - t < circuit_breaker_timeout then
          ⟨record_failure s now, false, false, some "Circuit breaker is open"⟩
        else
          run_pipeline { s with circuit_open := false, failure_count := 0 } now outcome
    | none =>
        ⟨record_failure s now, false, false, some "TypeError"⟩
  else
    run_pipeline s now outcome

/-- After the `except` branch, a failure count at or above the threshold means
the breaker is open. -/
theorem record_failure_opens (s : OrchestratorState) (now : ℚ)
    (h : (record_failure s now).failure_count ≥ circuit_breaker_threshold) :
    (record_failure s now).circuit_open = true := by
  unfold record_failure at h ⊢
  simp only at h ⊢
  rw [if_pos h]

/-- After the pipeline part of `run_triage`, a failure count at or above the
threshold means the breaker is open. -/
theorem run_pipeline_opens (s : OrchestratorState) (now : ℚ) (outcome : PipelineOutcome)
    (h : (run_pipeline s now outcome).state.failure_count ≥ circuit_breaker_threshold) :
    (run_pipeline s now outcome).state.circuit_open = true := by
  cases outcome
  · exact absurd h (by simp [run_pipeline, circuit_breaker_threshold])
  · exact record_failure_opens s now h

/-- **C3.** (1) Whenever a `run_triage` call leaves `failure_count` at or above
`circuit_breaker_threshold`, the breaker is open afterwards.  (2) While the
breaker is open, a call within `circuit_breaker_timeout` seconds of the last
failure returns a failure (`Circuit breaker is open`) without invoking any
agent.  (3) Once the timeout has elapsed, the next call does run the agents,
and on success `failure_count` is reset to 0 (and the breaker is closed). -/
theorem circuit_breaker_behaviour (s : OrchestratorState) (now t : ℚ)
    (outcome : PipelineOutcome) :
    ((run_triage s now outcome).state.failure_count ≥ circuit_breaker_threshold →
      (run_triage s now outcome).state.circuit_open = true) ∧
    (s.circuit_open = true → s.last_failure_time = some t →
      now - t < circuit_breaker_timeout →
      (run_triage s now outcome).succeeded = false ∧
      (run_triage s now outcome).agents_invoked = false ∧
      (run_triage s now outcome).error_message = some "Circuit breaker is open") ∧
    (s.circuit_open = true → s.last_failure_time = some t →
      ¬ (now - t < circuit_breaker_timeout) →
      (run_triage s now outcome).agents_invoked = true ∧
      (outcome = .success →
        (run_triage s now outcome).state.failure_count = 0 ∧
        (run_triage s now outcome).state.circuit_open = false)) := by
  refine ⟨?_, ?_, ?_⟩
  · intro h
    unfold run_triage at h ⊢
    by_cases hopen : s.circuit_open
    · simp only [hopen, if_true] at h ⊢
      cases hlast : s.last_failure_time with
      | none =>
          simp only [hlast] at h ⊢
          exact record_failure_opens s now h
      | some t' =>
          simp only [hlast] at h ⊢
          by_cases htime : now - t' < circuit_breaker_timeout
          · simp only [htime, if_true] at h ⊢
            exact record_failure_opens s now h
          · simp only [htime, if_false] at h ⊢
            exact run_pipeline_opens _ now outcome h
    · simp only [Bool.not_eq_true] at hopen
      simp only [hopen, Bool.false_eq_true, if_false] at h ⊢
      exact run_pipeline_opens s now outcome h
  · intro hopen hlast hlt
    unfold run_triage
    simp [hopen, hlast, hlt]
  · intro hopen hlast hge
    unfold run_triage
    simp [hopen, hlast, hge]
    rcases houtcome : outcome with _ | _ <;> simp [run_pipeline]

/-- Witness for `circuit_breaker_behaviour`: a breaker opened at time 0 with 5
failures rejects a call at time 10 without invoking agents, and accepts a
successful call at time 61, resetting the count. -/
theorem circuit_breaker_behaviour_wit :
    ((run_triage ⟨5, some 0, true⟩ 10 .success).succeeded = false ∧
      (run_triage ⟨5, some 0, true⟩ 10 .success).agents_invoked = false ∧
      (run_triage ⟨5, some 0, true⟩ 10 .success).error_message =
        some "Circuit breaker is open") ∧
    ((run_triage ⟨5, some 0, true⟩ 61 .success).agents_invoked = true ∧
      (run_triage ⟨5, some 0, true⟩ 61 .success).state.failure_count = 0 ∧
      (run_triage ⟨5, some 0, true⟩ 61 .success).state.circuit_open = false) := by
  constructor
  · exact (circuit_breaker_behaviour ⟨5, some 0, true⟩ 10 0 .success).2.1
      rfl rfl (by norm_num [circuit_breaker_timeout])
  · have h := (circuit_breaker_behaviour ⟨5, some 0, true⟩ 61 0 .success).2.2
      rfl rfl (by norm_num [circuit_breaker_timeout])
    exact ⟨h.1, (h.2 rfl).1, (h.2 rfl).2⟩

/-! ## Orchestrator: retry wrapper (`orchestrator.py:178-209`) -/

/-- Default `self.max_retries` (`orchestrator.py:57`). -/
def max_retries_default : ℕ := 3

/-- How one attempt of the wrapped agent call ends. -/
inductive AttemptOutcome where
  | success
  | timeoutError
  | genericError (msg : String)
  deriving DecidableEq, Repr

/-- The non-retryable check of `_run_with_retry`:
`"circuit_breaker" in str(e).lower()`. -/
def is_circuit_breaker_error (msg : String) : Bool :=
  strContains msg.toLower "circuit_breaker"

/-- Result of `_run_with_retry`: how many attempts ran, the total backoff
seconds slept, and whether it returned or raised (with the raised message). -/
structure RetryResult where
  attempts : ℕ
  slept : ℕ
  outcome : Except String Unit
  deriving Repr

/-- The `for attempt in range(self.max_retries)` loop of `_run_with_retry`.
`pending` is the list of remaining attempt indices; after a retryable failure
the loop sleeps `2 ^ attempt` seconds unless the attempt was the last one. -/
def retry_loop (outcomes : ℕ → AttemptOutcome) (max_retries : ℕ) :
    List ℕ → ℕ → ℕ → Option String → RetryResult
  | [], attempts, slept, last_exception =>
      ⟨attempts, slept,
        .error (last_exception.getD "Agent execution failed after all retries")⟩
  | attempt :: rest, attempts, slept, _last_exception =>
      match outcomes attempt with
      | .success => ⟨attempts + 1, slept, .ok ()⟩
      | .timeoutError =>
          let slept := if attempt < max_retries - 1 then slept + 2 ^ attempt else slept
          retry_loop outcomes max_retries rest (attempts + 1) slept
            (some ("Agent timeout on attempt " ++ toString (attempt + 1)))
      | .genericError msg =>
          if is_circuit_breaker_error msg then
            ⟨attempts + 1, slept, .error msg⟩
          else
            let slept := if attempt < max_retries - 1 then slept + 2 ^ attempt else slept
            retry_loop outcomes max_retries rest (attempts + 1) slept (some msg)

/-- `AgentOrchestrator._run_with_retry`, with the wrapped call abstracted as a
map from attempt index to outcome. -/
def run_with_retry (outcomes : ℕ → AttemptOutcome) (max_retries : ℕ) : RetryResult :=
  retry_loop outcomes max_retries (List.range max_retries) 0 0 none

/-- An attempt that fails retryably: a timeout, or a generic error whose
message does not contain `circuit_breaker`. -/
def RetryableFailure (outcomes : ℕ → AttemptOutcome) (attempt : ℕ) : Prop :=
  outcomes attempt = .timeoutError ∨
    ∃ msg, outcomes attempt = .genericError msg ∧ is_circuit_breaker_error msg = false

instance (outcomes : ℕ → AttemptOutcome) (attempt : ℕ) :
    Decidable (RetryableFailure outcomes attempt) := by
  unfold RetryableFailure
  rcases h : outcomes attempt with _ | _ | msg
  · exact .isFalse (by simp [h])
  · exact .isTrue (Or.inl rfl)
  · rcases hcb : is_circuit_breaker_error msg with _ | _
    · exact .isTrue (Or.inr ⟨msg, rfl, hcb⟩)
    · exact .isFalse (by simp [h, hcb])

/-- **C4 counterexample.** With the default `max_retries = 3` and an agent that
times out on every attempt, `_run_with_retry` makes 3 attempts and sleeps
`2^0 + 2^1 = 3` seconds in total (no sleep follows the final attempt), not the
7 seconds stated by the claim. -/
theorem retry_backoff_claim_false :
    (run_with_retry (fun _ => .timeoutError) max_retries_default).attempts = 3 ∧
    (run_with_retry (fun _ => .timeoutError) max_retries_default).slept = 3 ∧
    (run_with_retry (fun _ => .timeoutError) max_retries_default).slept ≠ 7 := by
  refine ⟨rfl, rfl, by decide⟩

/-- The backoff the loop sleeps over a given list of failing attempt indices:
`2 ^ a` per attempt `a` that is not the final one (`a < max_retries - 1`). -/
def backoff_of_attempts (max_retries : ℕ) (l : List ℕ) : ℕ :=
  (l.map fun a => if a < max_retries - 1 then 2 ^ a else 0).sum

/-- When every listed attempt fails retryably, the loop runs them all, sleeps
the corresponding backoffs, and ends with a raised error. -/
theorem retry_loop_all_fail (outcomes : ℕ → AttemptOutcome) (m : ℕ) :
    ∀ (l : List ℕ) (attempts slept : ℕ) (last_exception : Option String),
    (∀ a ∈ l, RetryableFailure outcomes a) →
    (retry_loop outcomes m l attempts slept last_exception).attempts
        = attempts + l.length ∧
    (retry_loop outcomes m l attempts slept last_exception).slept
        = slept + backoff_of_attempts m l ∧
    ∃ e, (retry_loop outcomes m l attempts slept last_exception).outcome = .error e := by
  intro l
  induction l with
  | nil =>
      intro attempts slept last_exception _
      exact ⟨by simp [retry_loop], by simp [retry_loop, backoff_of_attempts], _, rfl⟩
  | cons a rest ih =>
      intro attempts slept last_exception hfail
      have ha : RetryableFailure outcomes a := hfail a (List.mem_cons_self a rest)
      have hrest : ∀ b ∈ rest, RetryableFailure outcomes b :=
        fun b hb => hfail b (List.mem_cons_of_mem a hb)
      have key : ∀ last2 : Option String,
          (retry_loop outcomes m rest (attempts + 1)
            (if a < m - 1 then slept + 2 ^ a else slept) last2).attempts
              = attempts + (a :: rest).length ∧
          (retry_loop outcomes m rest (attempts + 1)
            (if a < m - 1 then slept + 2 ^ a else slept) last2).slept
              = slept + backoff_of_attempts m (a :: rest) ∧
          ∃ e, (retry_loop outcomes m rest (attempts + 1)
            (if a < m - 1 then slept + 2 ^ a else slept) last2).outcome = .error e := by
        intro last2
        rcases ih (attempts + 1) (if a < m - 1 then slept + 2 ^ a else slept) last2 hrest
          with ⟨h1, h2, e, h3⟩
        refine ⟨by rw [h1]; simp; omega, ?_, e, h3⟩
        rw [h2]
        simp only [backoff_of_attempts, List.map_cons, List.sum_cons]
        split <;> omega
      rcases ha with h | ⟨msg, h, hcb⟩
      · simpa only [retry_loop, h] using key _
      · simpa only [retry_loop, h, hcb, Bool.false_eq_true, if_false] using key _

/-- The total backoff over all `max_retries` attempt indices is
`2 ^ (max_retries - 1) - 1`: every index but the last contributes `2 ^ a`. -/
theorem backoff_of_attempts_range (m : ℕ) (h : 1 ≤ m) :
    backoff_of_attempts m (List.range m) = 2 ^ (m - 1) - 1 := by
  obtain ⟨n, rfl⟩ : ∃ n, m = n + 1 := ⟨m - 1, by omega⟩
  have hsum : ∀ k : ℕ, ((List.range k).map fun a => (2:ℕ) ^ a).sum = 2 ^ k - 1 := by
    intro k
    induction k with
    | zero => simp
    | succ k ihk =>
        have h1 : (1:ℕ) ≤ 2 ^ k := Nat.one_le_two_pow
        rw [List.range_succ, List.map_append, List.sum_append, ihk]
        simp [pow_succ]
        omega
  unfold backoff_of_attempts
  rw [List.range_succ, List.map_append, List.sum_append]
  have hmap : (List.range n).map (fun a => if a < n + 1 - 1 then (2:ℕ) ^ a else 0) =
      (List.range n).map fun a => (2:ℕ) ^ a := by
    apply List.map_congr_left
    intro a haa
    have : a < n := List.mem_range.mp haa
    simp [this]
  rw [hmap, hsum n]
  simp

/-- **C4 (amended).** For every agent call that never succeeds (each attempt a
timeout or a non-circuit-breaker error), `_run_with_retry` makes exactly
`max_retries` attempts before raising, sleeping `2 ^ attempt` seconds after
every failed attempt except the last; the cumulative backoff is
`2 ^ (max_retries - 1) - 1` seconds — `1 + 2 = 3` seconds for the default
`max_retries = 3`, not 7. -/
theorem retry_all_fail_attempts_and_backoff (outcomes : ℕ → AttemptOutcome)
    (max_retries : ℕ) (hpos : 1 ≤ max_retries)
    (hfail : ∀ a, a < max_retries → RetryableFailure outcomes a) :
    (run_with_retry outcomes max_retries).attempts = max_retries ∧
    (run_with_retry outcomes max_retries).slept = 2 ^ (max_retries - 1) - 1 ∧
    ∃ e, (run_with_retry outcomes max_retries).outcome = .error e := by
  have h := retry_loop_all_fail outcomes max_retries (List.range max_retries) 0 0 none
    (fun a ha => hfail a (List.mem_range.mp ha))
  unfold run_with_retry
  rcases h with ⟨h1, h2, h3⟩
  exact ⟨by rw [h1]; simp, by rw [h2, backoff_of_attempts_range _ hpos]; simp, h3⟩

/-- Witness for `retry_all_fail_attempts_and_backoff` at the defaults: three
timeouts give 3 attempts, 3 seconds of backoff and a raised error. -/
theorem retry_all_fail_attempts_and_backoff_wit :
    (run_with_retry (fun _ => .timeoutError) 3).attempts = 3 ∧
    (run_with_retry (fun _ => .timeoutError) 3).slept = 2 ^ (3 - 1) - 1 ∧
    ∃ e, (run_with_retry (fun _ => .timeoutError) 3).outcome = .error e :=
  retry_all_fail_attempts_and_backoff (fun _ => .timeoutError) 3 (by decide)
    (fun a _ => Or.inl rfl)

/-! ## Router agent: built-in business rules (`router.py:49-80, 222-313`) -/

/-- An entry of `RouterAgent.routing_policies`. -/
structure RoutingPolicy where
  policy_name : String
  condition : String
  action : String
  team : String
  sla_hours : ℕ
  deriving Repr

/-- `RouterAgent.routing_policies` in source (priority) order.  The conditions
are the literal Python strings; single quotes are assembled with `sq`. -/
def routing_policies : List RoutingPolicy :=
  [⟨"high_risk_escalation",
    "risk_level == " ++ sq ++ "high" ++ sq ++ " OR risk_level == " ++ sq ++ "extreme" ++ sq,
    "escalate", "Escalation", 4⟩,
   ⟨"fraud_review",
    "case_type == " ++ sq ++ "fraud_review" ++ sq ++ " OR fraud_indicators > 0",
    "route", "Fraud-Review", 24⟩,
   ⟨"legal_cases",
    "case_type == " ++ sq ++ "legal_intake" ++ sq ++ " OR legal_indicators > 0",
    "route", "Specialist", 48⟩,
   ⟨"urgent_cases",
    "urgency == " ++ sq ++ "critical" ++ sq ++ " OR urgency == " ++ sq ++ "high" ++ sq,
    "route", "Tier-1", 2⟩,
   ⟨"standard_processing",
    "risk_level == " ++ sq ++ "low" ++ sq ++ " AND urgency == " ++ sq ++ "low" ++ sq,
    "route", "Tier-2", 72⟩]

/-- The evaluation context built in `_apply_business_rules` (`router.py:233-240`). -/
structure RouteContext where
  case_type : String
  urgency : String
  risk_level : String
  risk_score : ℚ
  fraud_indicators : ℕ
  legal_indicators : ℕ
  deriving Repr

/-- `RouterAgent._evaluate_policy_condition` (`router.py:279-313`): after the
cosmetic `replace` calls, the condition is probed for a fixed list of
substrings; an atom holds when its text occurs in the condition and the
corresponding context value matches.  Note that no check exists for
`case_type == 'legal_intake'` or `legal_indicators > 0`, so the condition of
the `legal_cases` policy can never evaluate to true. -/
def evaluate_policy_condition (condition : String) (ctx : RouteContext) : Bool :=
  let condition := strReplace (strReplace condition "OR" "or") "AND" "and"
  if strContains condition ("risk_level == " ++ sq ++ "high" ++ sq)
      && ctx.risk_level == "high" then true
  else if strContains condition ("risk_level == " ++ sq ++ "extreme" ++ sq)
      && ctx.risk_level == "extreme" then true
  else if strContains condition ("case_type == " ++ sq ++ "fraud_review" ++ sq)
      && ctx.case_type == "fraud_review" then true
  else if strContains condition ("urgency == " ++ sq ++ "critical" ++ sq)
      && ctx.urgency == "critical" then true
  else if strContains condition ("urgency == " ++ sq ++ "high" ++ sq)
      && ctx.urgency == "high" then true
  else if strContains condition "fraud_indicators > 0"
      && decide (0 < ctx.fraud_indicators) then true
  else false

/-- The routing decision `_apply_business_rules` returns. -/
structure RouteDecision where
  team : String
  sla_hours : ℕ
  escalation : Bool
  confidence : ℚ
  policy_applied : String
  deriving DecidableEq, Repr

/-- First policy whose condition evaluates to true, in priority order. -/
def first_matching_policy (policies : List RoutingPolicy) (ctx : RouteContext) :
    Option RoutingPolicy :=
  policies.find? fun p => evaluate_policy_condition p.condition ctx

/-- `RouterAgent._apply_business_rules` (`router.py:222-277`): try the routing
policies in order, else the default chain on risk level and urgency.
`risk_factors_count` is `len(risk_result.get("risk_factors", []))`, and
`legal_indicators` is 1 when `"legal" in case_type`. -/
def apply_business_rules (case_type urgency risk_level : String) (risk_score : ℚ)
    (risk_factors_count : ℕ) : RouteDecision :=
  let ctx : RouteContext :=
    ⟨case_type, urgency, risk_level, risk_score, risk_factors_count,
      if strContains case_type "legal" then 1 else 0⟩
  match first_matching_policy routing_policies ctx with
  | some p =>
      ⟨p.team, p.sla_hours, p.action == "escalate", 9/10, p.policy_name⟩
  | none =>
      if risk_level == "high" || risk_level == "extreme" then
        ⟨"Specialist", 48, false, 7/10, "default_high_risk"⟩
      else if urgency == "critical" || urgency == "high" then
        ⟨"Tier-1", 2, false, 7/10, "default_high_urgency"⟩
      else
        ⟨"Tier-2", 72, false, 7/10, "default_standard"⟩

/-- **C5 (code bug).** For a `legal_intake` case that is neither high nor
extreme risk, the built-in rules do **not** route to Specialist/48h:
with no risk factors the case falls through every policy to the default
`Tier-2`/72h branch, and with any risk factor present the `fraud_review`
policy fires (its condition contains `fraud_indicators > 0`) and routes to
`Fraud-Review`.  Yet the code declares a `legal_cases` policy mapping to
Specialist/48h whose condition mentions `case_type == legal_intake` —
`_evaluate_policy_condition` simply never tests that atom, so the condition
is unsatisfiable: the code contradicts its own policy table. -/
theorem legal_intake_routing_diverges :
    (apply_business_rules "legal_intake" "low" "low" 0 0 =
      ⟨"Tier-2", 72, false, 7/10, "default_standard"⟩) ∧
    (apply_business_rules "legal_intake" "low" "low" 0 1).team = "Fraud-Review" ∧
    ((routing_policies.find? fun p => p.policy_name == "legal_cases").map
        (fun p => (p.team, p.sla_hours)) = some ("Specialist", 48)) ∧
    (∀ p ∈ routing_policies, p.policy_name = "legal_cases" →
      evaluate_policy_condition p.condition
        ⟨"legal_intake", "low", "low", 0, 0, 1⟩ = false) := by
  refine ⟨rfl, ?_, ?_, ?_⟩ <;> decide

/-! ## Classifier agent: rule-based path (`classifier.py:56-94, 313-342`) -/

/-- `ClassifierAgent.case_type_keywords`, in source (insertion) order. -/
def case_type_keywords : List (String × List String) :=
  [("insurance_claim",
    ["claim", "insurance", "policy", "coverage", "premium", "deductible",
     "medical", "dental", "vision", "accident", "disability"]),
   ("healthcare_prior_auth",
    ["prior authorization", "pre-authorization", "medical necessity",
     "treatment plan", "prescription", "medication", "procedure"]),
   ("bank_dispute",
    ["dispute", "chargeback", "fraudulent", "unauthorized", "bank",
     "credit card", "debit", "transaction", "refund"]),
   ("legal_intake",
    ["legal", "attorney", "lawyer", "lawsuit", "litigation", "contract",
     "breach", "damages", "settlement", "court"]),
   ("fraud_review",
    ["fraud", "suspicious", "investigation", "identity theft", "forgery",
     "counterfeit", "embezzlement", "money laundering"])]

/-- `ClassifierAgent.urgency_keywords`, in source (insertion) order. -/
def urgency_keywords : List (String × List String) :=
  [("critical",
    ["emergency", "urgent", "immediate", "critical", "life-threatening",
     "severe", "acute", "trauma", "cardiac", "stroke"]),
   ("high",
    ["high priority", "important", "time-sensitive", "deadline",
     "escalation", "complaint", "dispute"]),
   ("medium",
    ["standard", "routine", "normal", "regular", "scheduled"]),
   ("low",
    ["low priority", "non-urgent", "routine", "maintenance", "inquiry"])]

/-- `sum(1 for keyword in keywords if keyword in text)`. -/
def keyword_score (text : String) (keywords : List String) : ℕ :=
  (keywords.filter fun k => strContains text k).length

/-- Python `max(items, key=lambda x: x[1])`: the **first** item whose score is
maximal (later items replace the champion only on a strictly larger score). -/
def py_max_by_score (l : List (String × ℕ)) : Option (String × ℕ) :=
  l.foldl (fun acc x =>
    match acc with
    | none => some x
    | some b => if x.2 > b.2 then some x else some b) none

/-- Output of `_classify_with_rules` (classification part). -/
structure RuleClassification where
  case_type : String
  urgency : String
  case_type_confidence : ℚ
  urgency_confidence : ℚ
  confidence : ℚ
  deriving Repr

/-- `ClassifierAgent._classify_with_rules` (`classifier.py:313-342`): score each
label by keyword hits in the lowercased combined text, take the argmax per
head (ties broken by declaration order), cap each head confidence at
`min(0.8, score / 3)`, and average the two confidences. -/
def classify_with_rules (text : String) : RuleClassification :=
  let case_type_scores := case_type_keywords.map fun p => (p.1, keyword_score text p.2)
  let ct := (py_max_by_score case_type_scores).getD ("", 0)
  let case_type_confidence : ℚ := min (8/10) ((ct.2 : ℚ) / 3)
  let urgency_scores := urgency_keywords.map fun p => (p.1, keyword_score text p.2)
  let u := (py_max_by_score urgency_scores).getD ("", 0)
  let urgency_confidence : ℚ := min (8/10) ((u.2 : ℚ) / 3)
  ⟨ct.1, u.1, case_type_confidence, urgency_confidence,
    (case_type_confidence + urgency_confidence) / 2⟩

/-- When no keyword of a list occurs in the text, its score is 0. -/
theorem keyword_score_eq_zero (text : String) (keywords : List String)
    (h : ∀ k ∈ keywords, strContains text k = false) :
    keyword_score text keywords = 0 := by
  unfold keyword_score
  rw [List.filter_eq_nil_iff.mpr]
  · rfl
  · intro k hk
    simp [h k hk]

/-- **C10.** In the rule-based path, a text containing no urgency keyword is
classified with `urgency = "critical"` (the first-declared label wins the
all-zero argmax) at urgency-head confidence 0, and a text containing no
case-type keyword yields `case_type = "insurance_claim"`. -/
theorem rule_classification_no_keywords (text : String) :
    ((∀ k ∈ (urgency_keywords.map Prod.snd).flatten, strContains text k = false) →
      (classify_with_rules text).urgency = "critical" ∧
      (classify_with_rules text).urgency_confidence = 0) ∧
    ((∀ k ∈ (case_type_keywords.map Prod.snd).flatten, strContains text k = false) →
      (classify_with_rules text).case_type = "insurance_claim") := by
  constructor
  · intro h
    have hz : ∀ p ∈ urgency_keywords, keyword_score text p.2 = 0 := by
      intro p hp
      apply keyword_score_eq_zero
      intro k hk
      apply h
      exact List.mem_flatten.mpr ⟨p.2, List.mem_map.mpr ⟨p, hp, rfl⟩, hk⟩
    have hscores : urgency_keywords.map (fun p => (p.1, keyword_score text p.2)) =
        [("critical", 0), ("high", 0), ("medium", 0), ("low", 0)] :=
      calc urgency_keywords.map (fun p => (p.1, keyword_score text p.2))
          = urgency_keywords.map (fun p => (p.1, 0)) :=
            List.map_congr_left (fun p hp => by rw [hz p hp])
        _ = [("critical", 0), ("high", 0), ("medium", 0), ("low", 0)] := rfl
    unfold classify_with_rules
    rw [hscores]
    refine ⟨rfl, ?_⟩
    show min ((8 : ℚ)/10) (((0 : ℕ) : ℚ)/3) = 0
    norm_num
  · intro h
    have hz : ∀ p ∈ case_type_keywords, keyword_score text p.2 = 0 := by
      intro p hp
      apply keyword_score_eq_zero
      intro k hk
      apply h
      exact List.mem_flatten.mpr ⟨p.2, List.mem_map.mpr ⟨p, hp, rfl⟩, hk⟩
    have hscores : case_type_keywords.map (fun p => (p.1, keyword_score text p.2)) =
        [("insurance_claim", 0), ("healthcare_prior_auth", 0), ("bank_dispute", 0),
         ("legal_intake", 0), ("fraud_review", 0)] :=
      calc case_type_keywords.map (fun p => (p.1, keyword_score text p.2))
          = case_type_keywords.map (fun p => (p.1, 0)) :=
            List.map_congr_left (fun p hp => by rw [hz p hp])
        _ = [("insurance_claim", 0), ("healthcare_prior_auth", 0), ("bank_dispute", 0),
             ("legal_intake", 0), ("fraud_review", 0)] := rfl
    unfold classify_with_rules
    rw [hscores]
    rfl

/-- Witness for `rule_classification_no_keywords`: the empty text contains no
keyword at all, and is classified `insurance_claim` / `critical` at urgency
confidence 0. -/
theorem rule_classification_no_keywords_wit :
    ((classify_with_rules "").urgency = "critical" ∧
      (classify_with_rules "").urgency_confidence = 0) ∧
    (classify_with_rules "").case_type = "insurance_claim" :=
  ⟨(rule_classification_no_keywords "").1 (by decide),
   (rule_classification_no_keywords "").2 (by decide)⟩

/-! ## Decision support agent: suggested actions (`decision_support.py:50-131, 256-302`) -/

/-- `DecisionSupportAgent.action_patterns`: per case type, lists keyed by
`high_risk` / `medium_risk` / `low_risk` (note the `_risk` suffix on the keys). -/
def action_patterns : List (String × List (String × List String)) :=
  [("insurance_claim",
    [("high_risk",
      ["Request additional documentation", "Schedule fraud investigation",
       "Notify compliance team", "Set up monitoring alerts"]),
     ("medium_risk",
      ["Review claim details", "Request supporting documents",
       "Verify policy coverage", "Calculate settlement amount"]),
     ("low_risk",
      ["Process standard approval", "Send confirmation letter",
       "Update customer records", "Close case"])]),
   ("healthcare_prior_auth",
    [("high_risk",
      ["Request medical records", "Consult with medical director",
       "Schedule peer review", "Notify provider of decision"]),
     ("medium_risk",
      ["Review treatment plan", "Verify medical necessity",
       "Check coverage criteria", "Make determination"]),
     ("low_risk",
      ["Approve treatment", "Send approval letter",
       "Update authorization system", "Notify provider"])]),
   ("bank_dispute",
    [("high_risk",
      ["Freeze account activity", "Initiate fraud investigation",
       "Contact law enforcement", "Notify compliance officer"]),
     ("medium_risk",
      ["Review transaction history", "Contact customer for details",
       "Investigate merchant", "Make provisional credit decision"]),
     ("low_risk",
      ["Process chargeback", "Send dispute letter",
       "Update customer account", "Monitor for resolution"])]),
   ("legal_intake",
    [("high_risk",
      ["Schedule urgent consultation", "Prepare legal documents",
       "Notify senior attorney", "Set up case management"]),
     ("medium_risk",
      ["Review case details", "Schedule consultation",
       "Prepare initial assessment", "Assign case number"]),
     ("low_risk",
      ["Schedule standard consultation", "Send welcome packet",
       "Create client file", "Assign paralegal"])])]

/-- Association-list lookup, as Python `dict.get`. -/
def alist_get {α : Type} (l : List (String × α)) (key : String) : Option α :=
  (l.find? fun p => p.1 = key).map Prod.snd

/-- The concatenation `_generate_actions` builds before deduplication
(`decision_support.py:259-301`): base actions via
`case_patterns.get(risk_level, case_patterns.get("medium_risk", []))` — since
`risk_level` is `high`/`medium`/`low`/`extreme` and the table keys carry the
`_risk` suffix, the first lookup always misses and the `medium_risk` list is
used — then urgency-, team- and risk-level-keyed additions. -/
def generate_actions_pool (case_type risk_level urgency team : String) : List String :=
  let case_patterns := (alist_get action_patterns case_type).getD []
  let risk_actions :=
    ((alist_get case_patterns risk_level).getD
      ((alist_get case_patterns "medium_risk").getD []))
  risk_actions
    ++ (if urgency = "critical" ∨ urgency = "high" then
          ["Prioritize for immediate review", "Set up escalation monitoring",
           "Notify management team"]
        else [])
    ++ (if team = "Fraud-Review" then
          ["Initiate fraud investigation", "Freeze related accounts",
           "Contact law enforcement if needed"]
        else if team = "Specialist" then
          ["Schedule specialist review", "Prepare detailed analysis",
           "Coordinate with external experts"]
        else if team = "Escalation" then
          ["Immediate management review", "Prepare escalation report",
           "Coordinate cross-functional response"]
        else [])
    ++ (if risk_level = "high" ∨ risk_level = "extreme" then
          ["Document decision rationale", "Update compliance logs",
           "Schedule follow-up review"]
        else [])

/-- The final `return list(set(actions))` of `_generate_actions`: CPython
iterates a `set` of strings in an unspecified, hash-seed-dependent order, so
the code is modelled by the set of its possible outputs — the lists holding
each distinct action exactly once, in any order. -/
def GenerateActionsOutput (case_type risk_level urgency team : String)
    (out : List String) : Prop :=
  out.Perm (generate_actions_pool case_type risk_level urgency team).dedup

/-- Keep the elements not seen before, first occurrences surviving. -/
def dedup_first_aux (seen : List String) : List String → List String
  | [] => []
  | a :: l =>
      if a ∈ seen then dedup_first_aux seen l
      else a :: dedup_first_aux (a :: seen) l

/-- Deduplication preserving the order of first occurrence, as the claim
states it (not what `list(set(...))` does). -/
def dedup_first (l : List String) : List String :=
  dedup_first_aux [] l

/-- The suggested-actions list as the claim describes it: the per-case-type
table entry for the risk level, concatenated with the additions, deduplicated
preserving first occurrence.  (Follows the words of the claim; the base lookup
uses the table entry for the given risk level.) -/
def claim_suggested_actions (case_type risk_level urgency team : String) : List String :=
  let case_patterns := (alist_get action_patterns case_type).getD []
  let base := (alist_get case_patterns (risk_level ++ "_risk")).getD []
  dedup_first
    (base
      ++ (if urgency = "critical" ∨ urgency = "high" then
            ["Prioritize for immediate review", "Set up escalation monitoring",
             "Notify management team"]
          else [])
      ++ (if team = "Fraud-Review" then
            ["Initiate fraud investigation", "Freeze related accounts",
             "Contact law enforcement if needed"]
          else if team = "Specialist" then
            ["Schedule specialist review", "Prepare detailed analysis",
             "Coordinate with external experts"]
          else if team = "Escalation" then
            ["Immediate management review", "Prepare escalation report",
             "Coordinate cross-functional response"]
          else [])
      ++ (if risk_level = "high" ∨ risk_level = "extreme" then
            ["Document decision rationale", "Update compliance logs",
             "Schedule follow-up review"]
          else []))

/-- **C9 counterexample.** For a high-risk, high-urgency `fraud_review` case
routed to Specialist (where the base lists agree — both empty — so only
ordering is at stake), the reversed pool is a possible output of
`list(set(actions))` but differs from the first-occurrence deduplication, so
the claimed equality fails. -/
theorem suggested_actions_order_claim_false :
    ¬ (∀ case_type risk_level urgency team out,
        GenerateActionsOutput case_type risk_level urgency team out →
        out = claim_suggested_actions case_type risk_level urgency team) := by
  intro hclaim
  have h := hclaim "fraud_review" "high" "high" "Specialist"
    (generate_actions_pool "fraud_review" "high" "high" "Specialist").reverse
    (by unfold GenerateActionsOutput; decide)
  revert h
  decide

/-- **C9 (amended).** Every possible output of `_generate_actions` holds
exactly the distinct elements of the concatenated pool — whose base lookup
falls back to the `medium_risk` list because the risk-level key never matches
the `_risk`-suffixed table keys — each exactly once (no duplicates), but in an
arbitrary order rather than in first-occurrence order. -/
theorem suggested_actions_dedup_unordered (case_type risk_level urgency team : String)
    (out : List String)
    (h : GenerateActionsOutput case_type risk_level urgency team out) :
    out.Nodup ∧
    (∀ a, a ∈ out ↔ a ∈ generate_actions_pool case_type risk_level urgency team) := by
  constructor
  · exact h.nodup_iff.mpr (List.nodup_dedup _)
  · intro a
    rw [h.mem_iff]
    exact List.mem_dedup

/-- Witness for `suggested_actions_dedup_unordered` at the counterexample
input with the reversed pool as output. -/
theorem suggested_actions_dedup_unordered_wit :
    ((generate_actions_pool "fraud_review" "high" "high" "Specialist").reverse.Nodup ∧
      (∀ a, a ∈ (generate_actions_pool "fraud_review" "high" "high" "Specialist").reverse ↔
        a ∈ generate_actions_pool "fraud_review" "high" "high" "Specialist")) :=
  suggested_actions_dedup_unordered "fraud_review" "high" "high" "Specialist"
    (generate_actions_pool "fraud_review" "high" "high" "Specialist").reverse
    (by unfold GenerateActionsOutput; decide)

/-! ## Canonical JSON (`json.dumps(..., sort_keys=True)`) -/

mutual
/-- A JSON value as built by the compliance agent.  Numbers carry their
serialized text (the Python `repr` of the int or float), since float
formatting is outside the scope of this embedding. -/
inductive Json where
  | null : Json
  | jbool : Bool → Json
  | num : String → Json
  | str : String → Json
  | arr : JsonList → Json
  | obj : JsonFields → Json

inductive JsonList where
  | nil : JsonList
  | cons : Json → JsonList → JsonList

inductive JsonFields where
  | nil : JsonFields
  | cons : String → Json → JsonFields → JsonFields
end

/-- Lexicographic comparison of character lists by code point, as Python
string `<`. -/
def charListLt : List Char → List Char → Bool
  | [], [] => false
  | [], _ :: _ => true
  | _ :: _, [] => false
  | a :: as, b :: bs =>
      if a.toNat < b.toNat then true
      else if b.toNat < a.toNat then false
      else charListLt as bs

/-- Python string `<`. -/
def strLtb (a b : String) : Bool :=
  charListLt a.toList b.toList

/-- Insert a field into a key-sorted field list (keys are unique in a dict,
so ties are immaterial). -/
def insertField (k : String) (v : Json) : JsonFields → JsonFields
  | .nil => .cons k v .nil
  | .cons k2 v2 rest =>
      if strLtb k k2 then .cons k v (.cons k2 v2 rest)
      else .cons k2 v2 (insertField k v rest)

/-- Sort the fields of an object by key, as `sort_keys=True`. -/
def sortFields : JsonFields → JsonFields
  | .nil => .nil
  | .cons k v rest => insertField k v (sortFields rest)

/-- The keys of a field list, in order. -/
def objKeys : JsonFields → List String
  | .nil => []
  | .cons k _ rest => k :: objKeys rest

/-- One character of a JSON string, escaped as the Python `json` encoder with
`ensure_ascii=True` does: `"` and `\` get a backslash, the five named control
characters their short forms, all other characters outside `0x20..0x7e` a
`\uXXXX` form (surrogate pairs beyond the BMP). -/
def escapeChar (c : Char) : String :=
  let n := c.toNat
  let hexDigitJ : ℕ → Char := fun d => if d < 10 then Char.ofNat (48 + d) else Char.ofNat (87 + d)
  let hex4 : ℕ → String := fun m =>
    String.mk [hexDigitJ (m / 4096 % 16), hexDigitJ (m / 256 % 16),
               hexDigitJ (m / 16 % 16), hexDigitJ (m % 16)]
  if n = 34 then String.mk [Char.ofNat 92, Char.ofNat 34]
  else if n = 92 then String.mk [Char.ofNat 92, Char.ofNat 92]
  else if n = 8 then "\\b"
  else if n = 9 then "\\t"
  else if n = 10 then "\\n"
  else if n = 12 then "\\f"
  else if n = 13 then "\\r"
  else if n < 32 ∨ n > 126 then
    if n < 65536 then "\\u" ++ hex4 n
    else "\\u" ++ hex4 (55296 + (n - 65536) / 1024) ++ "\\u" ++ hex4 (56320 + (n - 65536) % 1024)
  else String.singleton c

/-- A JSON string literal with quotes and escapes. -/
def jsonQuote (s : String) : String :=
  "\"" ++ String.join (s.toList.map escapeChar) ++ "\""

mutual
/-- Recursively sort the keys of every object, as `sort_keys=True` does at
serialization time. -/
def sortJson : Json → Json
  | .null => .null
  | .jbool b => .jbool b
  | .num r => .num r
  | .str s => .str s
  | .arr xs => .arr (sortJsonList xs)
  | .obj fs => .obj (sortFields (sortJsonFields fs))

def sortJsonList : JsonList → JsonList
  | .nil => .nil
  | .cons x rest => .cons (sortJson x) (sortJsonList rest)

def sortJsonFields : JsonFields → JsonFields
  | .nil => .nil
  | .cons k v rest => .cons k (sortJson v) (sortJsonFields rest)
end

mutual
/-- Serialize a JSON value with the Python default separators `", "` and
`": "` (fields are emitted in the order given). -/
def dumpsRaw : Json → String
  | .null => "null"
  | .jbool true => "true"
  | .jbool false => "false"
  | .num r => r
  | .str s => jsonQuote s
  | .arr xs => "[" ++ dumpsArr xs ++ "]"
  | .obj fs => "\x7b" ++ dumpsObj fs ++ "\x7d"

def dumpsArr : JsonList → String
  | .nil => ""
  | .cons x .nil => dumpsRaw x
  | .cons x (.cons y rest) => dumpsRaw x ++ ", " ++ dumpsArr (.cons y rest)

def dumpsObj : JsonFields → String
  | .nil => ""
  | .cons k v .nil => jsonQuote k ++ ": " ++ dumpsRaw v
  | .cons k v (.cons k2 v2 rest) =>
      jsonQuote k ++ ": " ++ dumpsRaw v ++ ", " ++ dumpsObj (.cons k2 v2 rest)
end

/-- `json.dumps(value, sort_keys=True)`: keys of every object sorted,
default separators, no extra whitespace. -/
def dumps (j : Json) : String :=
  dumpsRaw (sortJson j)

/-- Build a `JsonList` from a Lean list. -/
def jsonListOf : List Json → JsonList
  | [] => .nil
  | x :: rest => .cons x (jsonListOf rest)

/-- Build a `JsonFields` from a Lean association list (insertion order). -/
def jsonFieldsOf : List (String × Json) → JsonFields
  | [] => .nil
  | (k, v) :: rest => .cons k v (jsonFieldsOf rest)

/-! ## SHA-256 (`hashlib.sha256(...).hexdigest()` over the UTF-8 encoding) -/

/-- UTF-8 encoding of one character (as Python `str.encode()`). -/
def utf8Encode (c : Char) : List ℕ :=
  let n := c.toNat
  if n < 0x80 then [n]
  else if n < 0x800 then [0xC0 + n / 0x40, 0x80 + n % 0x40]
  else if n < 0x10000 then
    [0xE0 + n / 0x1000, 0x80 + (n / 0x40) % 0x40, 0x80 + n % 0x40]
  else
    [0xF0 + n / 0x40000, 0x80 + (n / 0x1000) % 0x40, 0x80 + (n / 0x40) % 0x40,
     0x80 + n % 0x40]

/-- UTF-8 bytes of a string. -/
def utf8Bytes (s : String) : List ℕ :=
  (s.toList.map utf8Encode).flatten

/-- 32-bit right rotation. -/
def rotr (n x : ℕ) : ℕ :=
  ((x >>> n) ||| (x <<< (32 - n))) % 2 ^ 32

/-- The SHA-256 round constants. -/
def sha_k : List ℕ :=
  [1116352408, 1899447441, 3049323471, 3921009573, 961987163,
   1508970993, 2453635748, 2870763221, 3624381080, 310598401,
   607225278, 1426881987, 1925078388, 2162078206, 2614888103,
   3248222580, 3835390401, 4022224774, 264347078, 604807628,
   770255983, 1249150122, 1555081692, 1996064986, 2554220882,
   2821834349, 2952996808, 3210313671, 3336571891, 3584528711,
   113926993, 338241895, 666307205, 773529912, 1294757372,
   1396182291, 1695183700, 1986661051, 2177026350, 2456956037,
   2730485921, 2820302411, 3259730800, 3345764771, 3516065817,
   3600352804, 4094571909, 275423344, 430227734, 506948616,
   659060556, 883997877, 958139571, 1322822218, 1537002063,
   1747873779, 1955562222, 2024104815, 2227730452, 2361852424,
   2428436474, 2756734187, 3204031479, 3329325298]

/-- The SHA-256 initial hash value. -/
def sha_h0 : List ℕ :=
  [1779033703, 3144134277, 1013904242, 2773480762,
   1359893119, 2600822924, 528734635, 1541459225]

/-- SHA-256 message padding: `0x80`, zeros to 56 mod 64, 64-bit big-endian
bit length. -/
def padMessage (bytes : List ℕ) : List ℕ :=
  let len := bytes.length
  let padZeros := (55 + 64 - len % 64) % 64
  bytes ++ [0x80] ++ List.replicate padZeros 0 ++
    [(len * 8 / 2 ^ 56) % 256, (len * 8 / 2 ^ 48) % 256, (len * 8 / 2 ^ 40) % 256,
     (len * 8 / 2 ^ 32) % 256, (len * 8 / 2 ^ 24) % 256, (len * 8 / 2 ^ 16) % 256,
     (len * 8 / 2 ^ 8) % 256, (len * 8) % 256]

/-- Big-endian 32-bit words from bytes. -/
def toWords : List ℕ → List ℕ
  | b1 :: b2 :: b3 :: b4 :: rest =>
      (b1 * 2 ^ 24 + b2 * 2 ^ 16 + b3 * 2 ^ 8 + b4) :: toWords rest
  | _ => []

/-- Extend 16 schedule words to 64. -/
def extendWords : ℕ → List ℕ → List ℕ
  | 0, ws => ws
  | n + 1, ws =>
      let len := ws.length
      let w15 := ws.getD (len - 15) 0
      let w2 := ws.getD (len - 2) 0
      let s0 := (rotr 7 w15) ^^^ (rotr 18 w15) ^^^ (w15 >>> 3)
      let s1 := (rotr 17 w2) ^^^ (rotr 19 w2) ^^^ (w2 >>> 10)
      extendWords n
        (ws ++ [(ws.getD (len - 16) 0 + s0 + ws.getD (len - 7) 0 + s1) % 2 ^ 32])

/-- The eight working registers of the compression function. -/
structure Regs where
  a : ℕ
  b : ℕ
  c : ℕ
  d : ℕ
  e : ℕ
  f : ℕ
  g : ℕ
  h : ℕ

/-- One SHA-256 round. -/
def compressStep (r : Regs) (kw : ℕ × ℕ) : Regs :=
  let s1 := (rotr 6 r.e) ^^^ (rotr 11 r.e) ^^^ (rotr 25 r.e)
  let ch := (r.e &&& r.f) ^^^ ((2 ^ 32 - 1 - r.e) &&& r.g)
  let temp1 := (r.h + s1 + ch + kw.1 + kw.2) % 2 ^ 32
  let s0 := (rotr 2 r.a) ^^^ (rotr 13 r.a) ^^^ (rotr 22 r.a)
  let maj := (r.a &&& r.b) ^^^ (r.a &&& r.c) ^^^ (r.b &&& r.c)
  let temp2 := (s0 + maj) % 2 ^ 32
  ⟨(temp1 + temp2) % 2 ^ 32, r.a, r.b, r.c, (r.d + temp1) % 2 ^ 32, r.e, r.f, r.g⟩

/-- Compress one 64-byte block into the hash state. -/
def compressBlock (h : List ℕ) (block : List ℕ) : List ℕ :=
  let ws := extendWords 48 (toWords block)
  let r0 : Regs := ⟨h.getD 0 0, h.getD 1 0, h.getD 2 0, h.getD 3 0,
                    h.getD 4 0, h.getD 5 0, h.getD 6 0, h.getD 7 0⟩
  let r := (sha_k.zip ws).foldl compressStep r0
  [(h.getD 0 0 + r.a) % 2 ^ 32, (h.getD 1 0 + r.b) % 2 ^ 32,
   (h.getD 2 0 + r.c) % 2 ^ 32, (h.getD 3 0 + r.d) % 2 ^ 32,
   (h.getD 4 0 + r.e) % 2 ^ 32, (h.getD 5 0 + r.f) % 2 ^ 32,
   (h.getD 6 0 + r.g) % 2 ^ 32, (h.getD 7 0 + r.h) % 2 ^ 32]

/-- Process all padded blocks (the fuel bounds the number of blocks). -/
def processBlocks : ℕ → List ℕ → List ℕ → List ℕ
  | 0, _, h => h
  | _ + 1, [], h => h
  | fuel + 1, bytes, h =>
      processBlocks fuel (bytes.drop 64) (compressBlock h (bytes.take 64))

/-- Lowercase hex rendering of a 32-bit word. -/
def toHex8 (n : ℕ) : String :=
  let hexDigitJ : ℕ → Char := fun d => if d < 10 then Char.ofNat (48 + d) else Char.ofNat (87 + d)
  String.mk
    [hexDigitJ (n / 2 ^ 28 % 16), hexDigitJ (n / 2 ^ 24 % 16), hexDigitJ (n / 2 ^ 20 % 16),
     hexDigitJ (n / 2 ^ 16 % 16), hexDigitJ (n / 2 ^ 12 % 16), hexDigitJ (n / 2 ^ 8 % 16),
     hexDigitJ (n / 2 ^ 4 % 16), hexDigitJ (n % 16)]

/-- `hashlib.sha256(s.encode()).hexdigest()`. -/
def sha256_hex (s : String) : String :=
  let padded := padMessage (utf8Bytes s)
  let digest := processBlocks (padded.length / 64 + 1) padded sha_h0
  String.join (digest.map toHex8)

/-! ## Compliance agent: audit log (`compliance.py:235-270`) -/

/-- One entry of the `agent_results` list inside the audit trail
(`compliance.py:249-256`): agent name, confidence and processing time.  The
confidence is a Python float; `confidence_repr` carries its JSON rendering. -/
structure AgentSummary where
  agent : String
  confidence_repr : String
  processing_time_ms : ℕ

/-- The JSON object serialized for one agent inside the audit trail. -/
def agent_summary_json (r : AgentSummary) : Json :=
  .obj (jsonFieldsOf
    [("agent", .str r.agent),
     ("confidence", .num r.confidence_repr),
     ("processing_time_ms", .num (toString r.processing_time_ms))])

/-- The `audit_trail` dict of `_generate_audit_log` (`compliance.py:243-257`),
fields in insertion order.  `case_id` is `case_data.get("id")`, which may be
any JSON value (or `null`).  There is no `previous_hash` field. -/
def audit_trail_fields (case_id : Json) (timestamp audit_id : String)
    (pii_detected : Bool) (pii_types : List String)
    (agent_results : List AgentSummary) : JsonFields :=
  jsonFieldsOf
    [("case_id", case_id),
     ("timestamp", .str timestamp),
     ("audit_id", .str audit_id),
     ("pii_detected", .jbool pii_detected),
     ("pii_types", .arr (jsonListOf (pii_types.map .str))),
     ("agent_results", .arr (jsonListOf (agent_results.map agent_summary_json)))]

/-- The audit trail as a JSON value. -/
def audit_trail_json (case_id : Json) (timestamp audit_id : String)
    (pii_detected : Bool) (pii_types : List String)
    (agent_results : List AgentSummary) : Json :=
  .obj (audit_trail_fields case_id timestamp audit_id pii_detected pii_types agent_results)

/-- The audit log dict returned by `_generate_audit_log`
(`compliance.py:264-270`).  `integrity_hash` is
`sha256(json.dumps(audit_trail, sort_keys=True).encode()).hexdigest()`. -/
structure GeneratedAuditLog where
  audit_id : String
  timestamp : String
  audit_trail : Json
  integrity_hash : String
  retention_date : String

/-- `ComplianceAgent._generate_audit_log`, with the fresh `uuid4` audit id, the
`datetime.utcnow()` timestamp and the retention date as parameters.  Note the
function takes no previous entry: audit logs are not chained. -/
def generate_audit_log (case_id : Json) (timestamp audit_id : String)
    (pii_detected : Bool) (pii_types : List String)
    (agent_results : List AgentSummary) (retention_date : String) : GeneratedAuditLog :=
  let trail := audit_trail_json case_id timestamp audit_id pii_detected pii_types agent_results
  ⟨audit_id, timestamp, trail, sha256_hex (dumps trail), retention_date⟩

/-- The canonical JSON of an audit entry as the claim describes it: the fields
`case_id, timestamp, audit_id, pii_detected, pii_types, agent_summaries,
previous_hash`, keys sorted, no extra whitespace.  (Follows the words of the
claim, for comparison with the code.) -/
def claim_audit_entry_json (case_id : Json) (timestamp audit_id : String)
    (pii_detected : Bool) (pii_types : List String)
    (agent_summaries : List AgentSummary) (previous_hash : String) : Json :=
  .obj (jsonFieldsOf
    [("case_id", case_id),
     ("timestamp", .str timestamp),
     ("audit_id", .str audit_id),
     ("pii_detected", .jbool pii_detected),
     ("pii_types", .arr (jsonListOf (pii_types.map .str))),
     ("agent_summaries", .arr (jsonListOf (agent_summaries.map agent_summary_json))),
     ("previous_hash", .str previous_hash)])

set_option maxRecDepth 1000000
set_option maxHeartbeats 4000000

/-- **C1 counterexample.** For a concrete audit entry, the hash the code stores
(`integrity_hash`, SHA-256 of the canonical JSON of
`{agent_results, audit_id, case_id, pii_detected, pii_types, timestamp}`)
differs from SHA-256 of the canonical JSON the claim prescribes (which also
includes `previous_hash` — here the genesis value `""` — and names the
summaries `agent_summaries`): the entry hash is not computed over the field
set of the claim, and `_generate_audit_log` takes no previous entry at all, so
entries are not hash-linked. -/
theorem audit_hash_claim_false :
    (generate_audit_log (Json.str "case-1") "2024-01-01T00:00:00" "audit-1" false []
        [⟨"ClassifierAgent", "0.8", 12⟩] "2025-01-01T00:00:00").integrity_hash ≠
      sha256_hex (dumps (claim_audit_entry_json (Json.str "case-1") "2024-01-01T00:00:00"
        "audit-1" false [] [⟨"ClassifierAgent", "0.8", 12⟩] "")) := by
  decide

/-- **C1 (amended).** The `integrity_hash` of every generated audit entry is
SHA-256 over the canonical JSON (sorted keys, separators `", "`/`": "`) of the
six fields `agent_results, audit_id, case_id, pii_detected, pii_types,
timestamp` — in exactly that sorted key order — and that JSON contains no
`previous_hash` key: entries are not hash-linked. -/
theorem audit_hash_fields (case_id : Json) (timestamp audit_id : String)
    (pii_detected : Bool) (pii_types : List String)
    (agent_results : List AgentSummary) (retention_date : String) :
    (generate_audit_log case_id timestamp audit_id pii_detected pii_types
        agent_results retention_date).integrity_hash =
      sha256_hex (dumps (audit_trail_json case_id timestamp audit_id pii_detected
        pii_types agent_results)) ∧
    objKeys (sortFields (audit_trail_fields case_id timestamp audit_id pii_detected
        pii_types agent_results)) =
      ["agent_results", "audit_id", "case_id", "pii_detected", "pii_types", "timestamp"] ∧
    "previous_hash" ∉ objKeys (sortFields (audit_trail_fields case_id timestamp audit_id
        pii_detected pii_types agent_results)) := by
  refine ⟨rfl, rfl, ?_⟩
  have h : objKeys (sortFields (audit_trail_fields case_id timestamp audit_id
      pii_detected pii_types agent_results)) =
      ["agent_results", "audit_id", "case_id", "pii_detected", "pii_types", "timestamp"] := rfl
  rw [h]
  decide

/-! ## Compliance agent: PII regular expressions (`compliance.py:49-85, 167-233`)

The seven PII patterns are embedded as slice-local validity predicates
(`okCore`): given the word-ness of the character before the candidate match,
the exact slice of characters, and the word-ness of the character after it,
`okCore` decides whether the slice is a complete match of the pattern.  The
engine length at a position is the maximum valid slice length (for these
seven patterns this coincides with the length chosen by the backtracking
engine of Python `re`, because every optional or repeated element is either
forced by the character classes or resolved greedily rightmost).  `\b` is
modelled over ASCII word characters `[A-Za-z0-9_]`; characters outside ASCII
are treated as non-word. -/

/-- ASCII word character, as in `\w` and `\b` of the embedded patterns. -/
def pwordChar (c : Char) : Bool := c.isAlphanum || c == '_'

/-- Word-ness of an optional context character (an absent neighbour — start
or end of the string — is non-word for `\b`). -/
def pwordOpt : Option Char → Bool
  | none => false
  | some c => pwordChar c

/-- Python `\s` (ASCII): space, tab, newline, carriage return, form feed,
vertical tab. -/
def pspace (c : Char) : Bool :=
  c == ' ' || c == '\t' || c == '\n' || c == '\r' || c == Char.ofNat 12 || c == Char.ofNat 11

/-- The class `[\s-]` of the optional separators. -/
def psep (c : Char) : Bool := pspace c || c == '-'

/-- A PII pattern: the slice validity predicate and the replacement token. -/
structure PiiPattern where
  okCore : Bool → List Char → Bool → Bool
  token : List Char

/-- `patOk P prev s len`: the first `len` characters of `s` are a complete
match of `P` in left context `prev` (the character just before `s`). -/
def patOk (P : PiiPattern) (prev : Option Char) (s : List Char) (len : ℕ) : Bool :=
  decide (1 ≤ len) && decide (len ≤ s.length) &&
    P.okCore (pwordOpt prev) (s.take len) (pwordOpt (s.get? len))

/-- Search lengths `n, n-1, …, 1` for the largest valid match length. -/
def matchAtFrom (P : PiiPattern) (prev : Option Char) (s : List Char) : ℕ → Option ℕ
  | 0 => none
  | n + 1 => if patOk P prev s (n + 1) then some (n + 1) else matchAtFrom P prev s n

/-- The engine match at the head of `s`: the largest valid length, if any. -/
def matchAt (P : PiiPattern) (prev : Option Char) (s : List Char) : Option ℕ :=
  matchAtFrom P prev s s.length

/-- A valid match length is positive and within the string. -/
theorem patOk_bounds (P : PiiPattern) (prev : Option Char) (s : List Char) (len : ℕ)
    (h : patOk P prev s len = true) : 1 ≤ len ∧ len ≤ s.length := by
  unfold patOk at h
  simp only [Bool.and_eq_true, decide_eq_true_eq] at h
  exact ⟨h.1.1, h.1.2⟩

/-- Unfold a valid match to its slice-level core. -/
theorem patOk_core (P : PiiPattern) (prev : Option Char) (s : List Char) (len : ℕ)
    (h : patOk P prev s len = true) :
    P.okCore (pwordOpt prev) (s.take len) (pwordOpt (s.get? len)) = true := by
  unfold patOk at h
  simp only [Bool.and_eq_true, decide_eq_true_eq] at h
  exact h.2

theorem matchAtFrom_sound (P : PiiPattern) (prev : Option Char) (s : List Char) :
    ∀ n len, matchAtFrom P prev s n = some len → patOk P prev s len = true := by
  intro n
  induction n with
  | zero => intro len h; simp [matchAtFrom] at h
  | succ n ih =>
      intro len h
      unfold matchAtFrom at h
      split at h
      · cases h; assumption
      · exact ih len h

/-- The search is exhaustive: a valid length below the bound is never missed. -/
theorem matchAtFrom_complete (P : PiiPattern) (prev : Option Char) (s : List Char) :
    ∀ n len, len ≤ n → patOk P prev s len = true → matchAtFrom P prev s n ≠ none := by
  intro n
  induction n with
  | zero =>
      intro len hle hok
      have h1 := (patOk_bounds P prev s len hok).1
      omega
  | succ n ih =>
      intro len hle hok
      unfold matchAtFrom
      split
      · simp
      · next hfail =>
          have hlen : len ≤ n := by
            rcases Nat.lt_or_ge len (n + 1) with h | h
            · omega
            · exfalso
              have heq : len = n + 1 := by omega
              rw [heq] at hok
              simp [hok] at hfail
          exact ih len hlen hok

theorem matchAt_sound (P : PiiPattern) (prev : Option Char) (s : List Char) (len : ℕ)
    (h : matchAt P prev s = some len) : patOk P prev s len = true :=
  matchAtFrom_sound P prev s s.length len h

theorem matchAt_complete (P : PiiPattern) (prev : Option Char) (s : List Char) (len : ℕ)
    (hok : patOk P prev s len = true) : matchAt P prev s ≠ none :=
  matchAtFrom_complete P prev s s.length len (patOk_bounds P prev s len hok).2 hok

/-- `re.sub` over character lists: scan left to right on the original string;
at a match emit the token and skip the matched characters (the skip counter
carries how many remain to drop), otherwise copy one character.  `prev` is
the original character just before the current position. -/
def subRun (P : PiiPattern) : Option Char → ℕ → List Char → List Char
  | _, _, [] => []
  | _, k + 1, c :: rest => subRun P (some c) k rest
  | prev, 0, c :: rest =>
      match matchAt P prev (c :: rest) with
      | some (k + 1) => P.token ++ subRun P (some c) k rest
      | _ => c :: subRun P (some c) 0 rest

/-- One full substitution pass of pattern `P`. -/
def subPat (P : PiiPattern) (s : List Char) : List Char :=
  subRun P none 0 s

/-- The skip phase lands after the matched region with the region's last
character as context. -/
theorem subRun_skip (P : PiiPattern) :
    ∀ (k : ℕ) (rest : List Char) (c : Char), k ≤ rest.length →
      subRun P (some c) k rest = subRun P ((c :: rest).get? k) 0 (rest.drop k) := by
  intro k
  induction k with
  | zero => intro rest c _; rfl
  | succ k ih =>
      intro rest c hk
      match rest with
      | [] => simp at hk
      | d :: rest' =>
          have : k ≤ rest'.length := by simpa using hk
          show subRun P (some d) k rest' = _
          rw [ih rest' d this]
          rfl

/-- The call graph of `subRun` starting in scan state (skip 0), as a relation
between input and output. -/
inductive SubView (P : PiiPattern) : Option Char → List Char → List Char → Prop where
  | nil : ∀ prev, SubView P prev [] []
  | copy : ∀ prev c rest out, matchAt P prev (c :: rest) = none →
      SubView P (some c) rest out →
      SubView P prev (c :: rest) (c :: out)
  | repl : ∀ prev c rest k out, matchAt P prev (c :: rest) = some (k + 1) →
      SubView P ((c :: rest).get? k) (rest.drop k) out →
      SubView P prev (c :: rest) (P.token ++ out)

/-- `subRun` in scan state realizes `SubView`. -/
theorem subRun_view (P : PiiPattern) :
    ∀ (s : List Char) (prev : Option Char), SubView P prev s (subRun P prev 0 s) := by
  suffices key : ∀ (n : ℕ) (s : List Char), s.length ≤ n →
      ∀ prev, SubView P prev s (subRun P prev 0 s) by
    intro s prev
    exact key s.length s le_rfl prev
  intro n
  induction n with
  | zero =>
      intro s hs prev
      have : s = [] := List.eq_nil_of_length_eq_zero (by omega)
      subst this
      exact SubView.nil prev
  | succ n ih =>
      intro s hs prev
      match s with
      | [] => exact SubView.nil prev
      | c :: rest =>
          have hrest : rest.length ≤ n := by simpa using hs
          rcases hm : matchAt P prev (c :: rest) with _ | len
          · have hout : subRun P prev 0 (c :: rest) = c :: subRun P (some c) 0 rest := by
              simp only [subRun, hm]
            rw [hout]
            exact SubView.copy prev c rest _ hm (ih rest hrest (some c))

          · match len with
            | 0 =>
                exfalso
                have h0 := (patOk_bounds P prev (c :: rest) 0
                  (matchAt_sound P prev (c :: rest) 0 hm)).1
                omega
            | k + 1 =>
                have hk : k ≤ rest.length := by
                  have h2 := (patOk_bounds P prev (c :: rest) (k + 1)
                    (matchAt_sound P prev (c :: rest) (k + 1) hm)).2
                  simpa using h2
                have hout : subRun P prev 0 (c :: rest) =
                    P.token ++ subRun P (some c) k rest := by
                  simp only [subRun, hm]
                rw [hout, subRun_skip P k rest c hk]
                refine SubView.repl prev c rest k _ hm ?_
                exact ih (rest.drop k) (le_trans (by simpa using List.length_drop_le k rest) hrest)
                  ((c :: rest).get? k)

/-- The original character just before position `i` of `s`, where `prev` is
the character before position 0. -/
def ctxAt (prev : Option Char) (s : List Char) : ℕ → Option Char
  | 0 => prev
  | i + 1 => s.get? i

/-- No match of `P` starts at any position of `s` (in left context `prev`). -/
def NoMatch (P : PiiPattern) (prev : Option Char) (s : List Char) : Prop :=
  ∀ i len, patOk P (ctxAt prev s i) (s.drop i) len = false

theorem noMatch_nil (P : PiiPattern) (prev : Option Char) : NoMatch P prev [] := by
  intro i len
  rcases len with _ | len <;> simp [patOk]

theorem ctxAt_cons_succ (prev : Option Char) (c : Char) (s : List Char) (i : ℕ) :
    ctxAt prev (c :: s) (i + 1) = ctxAt (some c) s i := by
  rcases i with _ | i <;> rfl

theorem noMatch_cons_iff (P : PiiPattern) (prev : Option Char) (c : Char) (s : List Char) :
    NoMatch P prev (c :: s) ↔
      (∀ len, patOk P prev (c :: s) len = false) ∧ NoMatch P (some c) s := by
  constructor
  · intro h
    refine ⟨fun len => h 0 len, fun i len => ?_⟩
    have := h (i + 1) len
    rwa [ctxAt_cons_succ, List.drop_succ_cons] at this
  · rintro ⟨h0, h1⟩ i len
    rcases i with _ | i
    · exact h0 len
    · rw [ctxAt_cons_succ, List.drop_succ_cons]
      exact h1 i len

theorem ctxAt_add (prev : Option Char) (s : List Char) (m j : ℕ) :
    ctxAt (ctxAt prev s m) (s.drop m) j = ctxAt prev s (m + j) := by
  rcases j with _ | j
  · rfl
  · show (s.drop m).get? j = s.get? (m + j + 1 - 1)
    rw [List.get?_drop]
    congr 1

/-- Absence of matches restricts to any suffix. -/
theorem noMatch_shift (P : PiiPattern) (prev : Option Char) (s : List Char)
    (h : NoMatch P prev s) (m : ℕ) : NoMatch P (ctxAt prev s m) (s.drop m) := by
  intro j len
  rw [ctxAt_add, List.drop_drop]
  exact h (m + j) len

/-- `patOk` only inspects the word-ness of the context, the matched slice and
the word-ness of the following character. -/
theorem patOk_congr (P : PiiPattern) (prev prev2 : Option Char) (s s2 : List Char) (len : ℕ)
    (h : patOk P prev s len = true)
    (hprev : pwordOpt prev2 = pwordOpt prev)
    (hslice : s2.take len = s.take len)
    (hnext : pwordOpt (s2.get? len) = pwordOpt (s.get? len)) :
    patOk P prev2 s2 len = true := by
  have hb := patOk_bounds P prev s len h
  have hlen2 : len ≤ s2.length := by
    have h1 : (s.take len).length = len := by
      rw [List.length_take]
      omega
    have h2 : (s2.take len).length = len := by rw [hslice, h1]
    rw [List.length_take] at h2
    omega
  unfold patOk at h ⊢
  simp only [Bool.and_eq_true, decide_eq_true_eq] at h ⊢
  refine ⟨⟨hb.1, hlen2⟩, ?_⟩
  rw [hprev, hslice, hnext]
  exact h.2

/-- The facts each PII pattern provides about its matches and its token. -/
structure PatternFacts (P : PiiPattern) : Prop where
  ne_nil : ∀ b t bn, P.okCore b t bn = true → t ≠ []
  no_brackets : ∀ b t bn, P.okCore b t bn = true → ∀ c ∈ t, c ≠ '[' ∧ c ≠ ']'
  has_mark : ∀ b t bn, P.okCore b t bn = true → ∃ c ∈ t, c.isDigit ∨ c = '@'
  bound_start : ∀ b t bn c t2, P.okCore b t bn = true → t = c :: t2 → b ≠ pwordChar c
  bound_end : ∀ b t bn c, P.okCore b t bn = true → t.getLast? = some c → pwordChar c ≠ bn
  token_shape : ∃ inner, P.token = '[' :: inner ++ [']'] ∧
    ∀ c ∈ inner, ¬ c.isDigit ∧ c ≠ '@' ∧ c ≠ '[' ∧ c ≠ ']'

/-- Slice-level consequences at the `patOk` level: first character `\b`. -/
theorem patOk_start (P : PiiPattern) (hP : PatternFacts P) (prev : Option Char)
    (c : Char) (s : List Char) (len : ℕ) (h : patOk P prev (c :: s) len = true) :
    pwordOpt prev ≠ pwordChar c := by
  have hb := patOk_bounds P prev (c :: s) len h
  have hcore := patOk_core P prev (c :: s) len h
  have htake : (c :: s).take len = c :: s.take (len - 1) := by
    rcases len with _ | len
    · omega
    · simp
  exact hP.bound_start _ _ _ c (s.take (len - 1)) (htake ▸ hcore) rfl

/-- Slice-level consequences: the matched characters are never brackets. -/
theorem patOk_no_brackets (P : PiiPattern) (hP : PatternFacts P) (prev : Option Char)
    (s : List Char) (len : ℕ) (h : patOk P prev s len = true) :
    ∀ c ∈ s.take len, c ≠ '[' ∧ c ≠ ']' :=
  hP.no_brackets _ _ _ (patOk_core P prev s len h)

/-- Slice-level consequences: last character `\b` against the next one. -/
theorem patOk_end (P : PiiPattern) (hP : PatternFacts P) (prev : Option Char)
    (s : List Char) (len : ℕ) (h : patOk P prev s len = true) (c : Char)
    (hlast : (s.take len).getLast? = some c) :
    pwordChar c ≠ pwordOpt (s.get? len) :=
  hP.bound_end _ _ _ c (patOk_core P prev s len h) hlast

/-- Every prefix of the output of a substitution agrees with the input, or
already contains an opening bracket from an inserted token. -/
theorem subView_prefix (P : PiiPattern) (hP : PatternFacts P) :
    ∀ {prev s out}, SubView P prev s out →
      ∀ n, out.take n = s.take n ∨ '[' ∈ out.take n := by
  intro prev s out hview
  induction hview with
  | nil prev => intro n; left; rfl
  | copy prev c rest out hm hv ih =>
      intro n
      rcases n with _ | n
      · left; rfl
      · rcases ih n with h | h
        · left; simp [h]
        · right; simp [h]
  | repl prev c rest k out hm hv ih =>
      intro n
      rcases n with _ | n
      · left; rfl
      · right
        rcases hP.token_shape with ⟨inner, htok, _⟩
        rw [htok]
        simp

/-- The last character of a `take` slice is the character before the cut. -/
theorem take_getLast (s : List Char) (len : ℕ) (h1 : 1 ≤ len) (h2 : len ≤ s.length) :
    (s.take len).getLast? = s.get? (len - 1) := by
  rw [List.getLast?_eq_get?, List.length_take]
  have hmin : min len s.length = len := by omega
  rw [hmin]
  exact List.get?_take (by omega)

/-- The head of a `drop` suffix is the character at the cut. -/
theorem head_drop (s : List Char) (n : ℕ) : (s.drop n).head? = s.get? n := by
  rw [List.head?_drop, List.get?_eq_getElem?]

/-- Structure of a substitution output at a bracket-free agreeing prefix
boundary: both strings end, or both continue with the same character, or a
replacement token starts in the output while a match of `P` starts in the
input. -/
theorem subView_struct (P : PiiPattern) (hP : PatternFacts P) :
    ∀ {prev : Option Char} {s out : List Char}, SubView P prev s out →
      ∀ k, out.take k = s.take k → '[' ∉ out.take k →
        (out.get? k = none ∧ s.get? k = none) ∨
        (∃ c, out.get? k = some c ∧ s.get? k = some c) ∨
        (out.get? k = some '[' ∧
          ∃ len, patOk P (ctxAt prev s k) (s.drop k) len = true) := by
  intro prev s out hview
  induction hview with
  | nil prev => intro k _ _; left; simp
  | copy prev c rest out hm hv ih =>
      intro k htake hbr
      rcases k with _ | k
      · right; left; exact ⟨c, rfl, rfl⟩
      · simp only [List.take_succ_cons] at htake hbr
        have htail : out.take k = rest.take k := by
          simpa using htake
        have hbr2 : '[' ∉ out.take k := fun hmem => hbr (List.mem_cons_of_mem _ hmem)
        rcases ih k htail hbr2 with h | ⟨d, hd1, hd2⟩ | ⟨h1, len, h2⟩
        · left; exact h
        · right; left; exact ⟨d, hd1, hd2⟩
        · right; right
          refine ⟨h1, len, ?_⟩
          rw [ctxAt_cons_succ]
          exact h2
  | repl prev c rest k2 out hm hv ih =>
      intro k htake hbr
      rcases hP.token_shape with ⟨inner, htok, hinner⟩
      rcases k with _ | k
      · right; right
        constructor
        · rw [htok]; rfl
        · exact ⟨k2 + 1, matchAt_sound P prev (c :: rest) (k2 + 1) hm⟩
      · exfalso
        apply hbr
        rw [htok]
        simp

/-- Relation between the context character feeding an output suffix and the
context feeding the corresponding input suffix during the scan: word-ness
agrees, or a token just closed in the output (non-word context) while the
input context is the last (word) character of a matched region, in which
case the input suffix starts with a non-word character. -/
def CtxRel (outPrev inPrev : Option Char) (s : List Char) : Prop :=
  pwordOpt outPrev = pwordOpt inPrev ∨
    (pwordOpt outPrev = false ∧ pwordOpt inPrev = true ∧ pwordOpt s.head? = false)

/-- Pullback: a match of `Q` at the start of the output of substituting `P`
is also a match of `Q`, with the same length, at the start of the input. -/
theorem subView_pull (P Q : PiiPattern) (hP : PatternFacts P) (hQ : PatternFacts Q)
    {inPrev : Option Char} {s out : List Char} (hview : SubView P inPrev s out)
    {outPrev : Option Char} (hctx : CtxRel outPrev inPrev s)
    {len : ℕ} (h : patOk Q outPrev out len = true) :
    patOk Q inPrev s len = true := by
  have hb := patOk_bounds Q outPrev out len h
  have hnobr := patOk_no_brackets Q hQ outPrev out len h
  have hsl : out.take len = s.take len := by
    rcases subView_prefix P hP hview len with hsl | hbad
    · exact hsl
    · exact absurd rfl (hnobr '[' hbad).1
  have hlen_s : len ≤ s.length := by
    have h1 : (out.take len).length = len := by
      rw [List.length_take]; omega
    rw [hsl, List.length_take] at h1
    omega
  have h00 : out.get? 0 = s.get? 0 := by
    rw [← List.get?_take (show 0 < len by omega) (l := out),
        ← List.get?_take (show 0 < len by omega) (l := s), hsl]
  have hprev : pwordOpt inPrev = pwordOpt outPrev := by
    rcases hctx with hctx | ⟨ho, hi, hh⟩
    · exact hctx.symm
    · exfalso
      rcases hout : out with _ | ⟨c0, out0⟩
      · rw [hout] at hb; simp at hb; omega
      · have hstart := patOk_start Q hQ outPrev c0 out0 len (hout ▸ h)
        rw [ho] at hstart
        have hw : pwordChar c0 = true := by
          cases hx : pwordChar c0
          · exact absurd hx.symm hstart
          · rfl
        have hhead : s.head? = some c0 := by
          rw [← List.get?_zero, ← h00, hout]; rfl
        rw [hhead] at hh
        exact absurd hw (by simpa [pwordOpt] using hh)
  have hnext : pwordOpt (s.get? len) = pwordOpt (out.get? len) := by
    rcases subView_struct P hP hview len hsl
        (fun hmem => (hnobr '[' hmem).1 rfl) with
      ⟨h1, h2⟩ | ⟨d, h1, h2⟩ | ⟨h1, len2, h2⟩
    · rw [h1, h2]
    · rw [h1, h2]
    · have hlast : (s.take len).getLast? = s.get? (len - 1) :=
        take_getLast s len (by omega) hlen_s
      rcases hg : s.get? (len - 1) with _ | c1
      · exfalso
        rw [List.get?_eq_none] at hg
        omega
      · have hend := patOk_end Q hQ outPrev out len h c1 (by rw [hsl, hlast, hg])
        rw [h1] at hend
        have hw1 : pwordChar c1 = true := by
          cases hx : pwordChar c1
          · exact absurd (by rw [hx]; rfl) hend
          · rfl
        have hctx1 : ctxAt inPrev s len = some c1 := by
          rcases hlen : len with _ | m
          · omega
          · show s.get? m = some c1
            rw [← hg, hlen]
            norm_num
        rcases hdrop : s.drop len with _ | ⟨c2, r2⟩
        · exfalso
          have hb2 := patOk_bounds P (ctxAt inPrev s len) (s.drop len) len2 h2
          rw [hdrop] at hb2
          simp at hb2
          omega
        · have hstart := patOk_start P hP (ctxAt inPrev s len) c2 r2 len2 (hdrop ▸ h2)
          rw [hctx1] at hstart
          have hw2 : pwordChar c2 = false := by
            cases hx : pwordChar c2
            · rfl
            · exact absurd (by show pwordChar c1 = pwordChar c2; rw [hw1, hx]) hstart
          have hsl2 : s.get? len = some c2 := by
            rw [← head_drop, hdrop]; rfl
          rw [hsl2, h1]
          show pwordChar c2 = pwordChar '['
          rw [hw2]; rfl
  exact patOk_congr Q outPrev inPrev out s len h hprev (by rw [hsl]) hnext

/-- No `Q`-match starts on a run of mark-free, bracket-free characters that is
closed off by a `]`: any match slice either stays inside the run (but then has
no digit or `@`) or swallows the `]`. -/
theorem patOk_false_mid (Q : PiiPattern) (hQ : PatternFacts Q) (mid : List Char)
    (hmid : ∀ c ∈ mid, ¬ c.isDigit ∧ c ≠ '@' ∧ c ≠ '[' ∧ c ≠ ']')
    (out : List Char) (x : Option Char) (len : ℕ) :
    patOk Q x (mid ++ ']' :: out) len = false := by
  cases hok : patOk Q x (mid ++ ']' :: out) len
  · rfl
  exfalso
  have hb := patOk_bounds Q x (mid ++ ']' :: out) len hok
  by_cases hlen : len ≤ mid.length
  · have hsl : (mid ++ ']' :: out).take len = mid.take len := by
      rw [List.take_append_eq_append_take]
      have hz : len - mid.length = 0 := by omega
      rw [hz]
      simp
    rcases hQ.has_mark _ _ _ (patOk_core Q x _ len hok) with ⟨c, hc, hdig⟩
    rw [hsl] at hc
    have hcmid := hmid c (List.take_subset _ _ hc)
    rcases hdig with hd | ha
    · exact hcmid.1 hd
    · exact hcmid.2.1 ha
  · have hmem : ']' ∈ (mid ++ ']' :: out).take len := by
      rw [List.take_append_eq_append_take]
      refine List.mem_append_right _ ?_
      rcases hn : len - mid.length with _ | n
      · omega
      · simp
    exact (patOk_no_brackets Q hQ x _ len hok ']' hmem).2 rfl

/-- A mark-free bracket-free run followed by `]` and a match-free tail is
match-free under any context. -/
theorem noMatch_mid (Q : PiiPattern) (hQ : PatternFacts Q) :
    ∀ (mid : List Char), (∀ c ∈ mid, ¬ c.isDigit ∧ c ≠ '@' ∧ c ≠ '[' ∧ c ≠ ']') →
      ∀ (out : List Char), NoMatch Q (some ']') out →
        ∀ x, NoMatch Q x (mid ++ ']' :: out) := by
  intro mid
  induction mid with
  | nil =>
      intro _ out hout x
      rw [List.nil_append, noMatch_cons_iff]
      exact ⟨fun len => patOk_false_mid Q hQ [] (by simp) out x len, hout⟩
  | cons m mid ih =>
      intro hmid out hout x
      rw [List.cons_append, noMatch_cons_iff]
      refine ⟨fun len => patOk_false_mid Q hQ (m :: mid) hmid out x len, ?_⟩
      exact ih (fun c hc => hmid c (List.mem_cons_of_mem m hc)) out hout (some m)

/-- A replacement token followed by a match-free tail is match-free: tokens
are never (part of) a match. -/
theorem noMatch_token (P Q : PiiPattern) (hP : PatternFacts P) (hQ : PatternFacts Q)
    (out : List Char) (h : NoMatch Q (some ']') out) (prev : Option Char) :
    NoMatch Q prev (P.token ++ out) := by
  rcases hP.token_shape with ⟨inner, htok, hinner⟩
  rw [htok]
  have hassoc : ('[' :: inner ++ [']']) ++ out = '[' :: (inner ++ ']' :: out) := by
    simp
  rw [hassoc, noMatch_cons_iff]
  constructor
  · intro len
    cases hok : patOk Q prev ('[' :: (inner ++ ']' :: out)) len
    · rfl
    exfalso
    have hb := patOk_bounds Q prev _ len hok
    have hmem : '[' ∈ ('[' :: (inner ++ ']' :: out)).take len := by
      rcases len with _ | n
      · omega
      · simp
    exact (patOk_no_brackets Q hQ prev _ len hok '[' hmem).1 rfl
  · exact noMatch_mid Q hQ inner hinner out h (some '[')

/-- Main induction: substituting `P` leaves a string with no `Q`-matches,
provided the input had none (or `Q` is `P` itself), threading `CtxRel`. -/
theorem subView_noMatch (P Q : PiiPattern) (hP : PatternFacts P) (hQ : PatternFacts Q)
    {inPrev : Option Char} {s out : List Char} (hview : SubView P inPrev s out) :
    ∀ outPrev, CtxRel outPrev inPrev s →
      (NoMatch Q inPrev s ∨ Q = P) → NoMatch Q outPrev out := by
  induction hview with
  | nil prev => intro outPrev _ _; exact noMatch_nil Q outPrev
  | copy prev c rest out hm hv ih =>
      intro outPrev hctx hin
      rw [noMatch_cons_iff]
      constructor
      · intro len
        cases hok : patOk Q outPrev (c :: out) len
        · rfl
        exfalso
        have hpull := subView_pull P Q hP hQ (SubView.copy prev c rest out hm hv) hctx hok
        rcases hin with hno | hqp
        · have hz : patOk Q prev (c :: rest) len = false := hno 0 len
          rw [hz] at hpull
          exact Bool.noConfusion hpull
        · subst hqp
          exact matchAt_complete Q prev (c :: rest) len hpull hm
      · refine ih (some c) (Or.inl rfl) ?_
        rcases hin with hno | hqp
        · exact Or.inl ((noMatch_cons_iff Q prev c rest).mp hno).2
        · exact Or.inr hqp
  | repl prev c rest k out hm hv ih =>
      intro outPrev hctx hin
      have hmOk := matchAt_sound P prev (c :: rest) (k + 1) hm
      have hbnd := patOk_bounds P prev (c :: rest) (k + 1) hmOk
      rcases hg : (c :: rest).get? k with _ | c1
      · exfalso
        rw [List.get?_eq_none] at hg
        simp at hg hbnd
        omega
      · have hlast : ((c :: rest).take (k + 1)).getLast? = some c1 := by
          rw [take_getLast (c :: rest) (k + 1) (by omega) hbnd.2]
          simpa using hg
        have hend := patOk_end P hP prev (c :: rest) (k + 1) hmOk c1 hlast
        have hrel : CtxRel (some ']') ((c :: rest).get? k) (rest.drop k) := by
          rw [hg]
          by_cases hw : pwordChar c1 = true
          · right
            refine ⟨by decide, hw, ?_⟩
            rw [head_drop]
            cases hX : pwordOpt (rest.get? k)
            · rfl
            · exfalso
              apply hend
              rw [hw]
              show true = pwordOpt (rest.get? k)
              rw [hX]
          · left
            show pwordChar ']' = pwordChar c1
            cases hX : pwordChar c1
            · decide
            · exact absurd hX hw
        have hout : NoMatch Q (some ']') out := by
          refine ih (some ']') hrel ?_
          rcases hin with hno | hqp
          · exact Or.inl (noMatch_shift Q prev (c :: rest) hno (k + 1))
          · exact Or.inr hqp
        exact noMatch_token P Q hP hQ out hout outPrev

/-- A match-free string is left unchanged by the substitution scan. -/
theorem subRun_id (P : PiiPattern) :
    ∀ (s : List Char) (prev : Option Char), NoMatch P prev s → subRun P prev 0 s = s := by
  intro s
  induction s with
  | nil => intro prev _; rfl
  | cons c rest ih =>
      intro prev h
      rcases hm : matchAt P prev (c :: rest) with _ | len
      · have hout : subRun P prev 0 (c :: rest) = c :: subRun P (some c) 0 rest := by
          simp only [subRun, hm]
        rw [hout, ih (some c) ((noMatch_cons_iff P prev c rest).mp h).2]
      · exfalso
        have hok := matchAt_sound P prev (c :: rest) len hm
        have hz : patOk P prev (c :: rest) len = false := h 0 len
        rw [hz] at hok
        exact Bool.noConfusion hok

/-- After one full pass of `P`, the output is `P`-match-free. -/
theorem subPat_self_noMatch (P : PiiPattern) (hP : PatternFacts P) (s : List Char) :
    NoMatch P none (subPat P s) :=
  subView_noMatch P P hP hP (subRun_view P s none) none (Or.inl rfl) (Or.inr rfl)

/-- One pass of `P` never creates a `Q`-match. -/
theorem subPat_noCreate (P Q : PiiPattern) (hP : PatternFacts P) (hQ : PatternFacts Q)
    (s : List Char) (h : NoMatch Q none s) : NoMatch Q none (subPat P s) :=
  subView_noMatch P Q hP hQ (subRun_view P s none) none (Or.inl rfl) (Or.inl h)

/-- `re.sub` is the identity on match-free strings. -/
theorem subPat_id (P : PiiPattern) (s : List Char) (h : NoMatch P none s) :
    subPat P s = s :=
  subRun_id P s none h

/-- `NoMatch` only depends on the word-ness of the outer context. -/
theorem noMatch_ctx (Q : PiiPattern) (prev prev2 : Option Char) (s : List Char)
    (hw : pwordOpt prev2 = pwordOpt prev) (h : NoMatch Q prev s) : NoMatch Q prev2 s := by
  intro i len
  cases hok : patOk Q (ctxAt prev2 s i) (s.drop i) len
  · rfl
  exfalso
  have hok2 : patOk Q (ctxAt prev s i) (s.drop i) len = true := by
    rcases i with _ | j
    · exact patOk_congr Q prev2 prev (s.drop 0) (s.drop 0) len hok hw.symm rfl rfl
    · exact hok
  have hz := h i len
  rw [hz] at hok2
  exact Bool.noConfusion hok2

/-- `NoMatch` restricts to a prefix whose cut character is non-word: a match
inside the prefix transports across the cut unchanged. -/
theorem noMatch_prefix (Q : PiiPattern) (prev : Option Char) (f post : List Char)
    (h : NoMatch Q prev (f ++ post)) (hpost : pwordOpt post.head? = false) :
    NoMatch Q prev f := by
  intro i len
  cases hok : patOk Q (ctxAt prev f i) (f.drop i) len
  · rfl
  exfalso
  have hb := patOk_bounds Q _ _ len hok
  have hi : i < f.length := by
    have := hb.2
    rw [List.length_drop] at this
    omega
  have hdrop : (f ++ post).drop i = f.drop i ++ post := by
    rw [List.drop_append_eq_append_drop]
    have hz : i - f.length = 0 := by omega
    rw [hz, List.drop_zero]
  have hlen : len ≤ (f.drop i).length := hb.2

  have hok2 : patOk Q (ctxAt prev (f ++ post) i) ((f ++ post).drop i) len = true := by
    refine patOk_congr Q (ctxAt prev f i) (ctxAt prev (f ++ post) i)
      (f.drop i) ((f ++ post).drop i) len hok ?_ ?_ ?_
    · rcases i with _ | j
      · rfl
      · show pwordOpt ((f ++ post).get? j) = pwordOpt (f.get? j)
        rw [List.get?_append (by omega)]
    · rw [hdrop, List.take_append_eq_append_take]
      have hz : len - (f.drop i).length = 0 := by omega
      rw [hz]
      simp
    · rw [hdrop]
      rcases Nat.lt_or_ge len (f.drop i).length with hlt | hge
      · rw [List.get?_append hlt]
      · have heq : len = (f.drop i).length := by omega
        rw [List.get?_append_right (by omega)]
        have hz2 : (f.drop i).get? len = none := by
          rw [List.get?_eq_none]
          omega
        rw [hz2, heq, Nat.sub_self, List.get?_zero, hpost]
        rfl
  have hz := h i len
  rw [hz] at hok2
  exact Bool.noConfusion hok2

/-- The context just after a nonempty prefix is its last character. -/
theorem ctxAt_append_length (pre x : List Char) (h : pre ≠ []) :
    ctxAt none (pre ++ x) pre.length = pre.getLast? := by
  have hlen : 1 ≤ pre.length := List.length_pos.mpr h
  rcases hl : pre.length with _ | m
  · omega
  · show (pre ++ x).get? m = pre.getLast?
    rw [List.get?_append (by omega), List.getLast?_eq_get?, hl]
    norm_num

/-- A string embedded between non-word cut characters inherits match-freeness
from the surrounding text. -/
theorem noMatch_field (Q : PiiPattern) (pre f post : List Char)
    (hno : NoMatch Q none (pre ++ (f ++ post)))
    (hpre : pre = [] ∨ ∃ c0, pre.getLast? = some c0 ∧ pwordChar c0 = false)
    (hpost : post = [] ∨ ∃ c0, post.head? = some c0 ∧ pwordChar c0 = false) :
    NoMatch Q none f := by
  have h1 : NoMatch Q (ctxAt none (pre ++ (f ++ post)) pre.length) (f ++ post) := by
    have := noMatch_shift Q none (pre ++ (f ++ post)) hno pre.length
    rwa [List.drop_left] at this
  have hcut : pwordOpt (ctxAt none (pre ++ (f ++ post)) pre.length) = false := by
    rcases hpre with hnil | ⟨c0, hc0, hw0⟩
    · subst hnil; rfl
    · have hne : pre ≠ [] := by
        intro hx; rw [hx] at hc0; exact Option.noConfusion hc0
      rw [ctxAt_append_length pre (f ++ post) hne, hc0]
      exact hw0
  have hpw : pwordOpt post.head? = false := by
    rcases hpost with hnil | ⟨c0, hc0, hw0⟩
    · subst hnil; rfl
    · rw [hc0]; exact hw0
  have h2 : NoMatch Q (ctxAt none (pre ++ (f ++ post)) pre.length) f :=
    noMatch_prefix Q _ f post h1 hpw
  exact noMatch_ctx Q _ none f (by rw [hcut]; rfl) h2

/-- Python `" ".join(parts)` over character lists. -/
def joinSpace : List (List Char) → List Char
  | [] => []
  | [p] => p
  | p :: q :: rest => p ++ ' ' :: joinSpace (q :: rest)

theorem joinSpace_cons (p : List Char) (L : List (List Char)) (h : L ≠ []) :
    joinSpace (p :: L) = p ++ ' ' :: joinSpace L := by
  match L with
  | [] => exact absurd rfl h
  | q :: rest => rfl

/-- Every part of a join sits between a space (or the start) and a space (or
the end). -/
theorem joinSpace_decomp (A : List (List Char)) (p : List Char) (B : List (List Char)) :
    ∃ pre post, joinSpace (A ++ p :: B) = pre ++ (p ++ post) ∧
      (pre = [] ∨ ∃ c0, pre.getLast? = some c0 ∧ pwordChar c0 = false) ∧
      (post = [] ∨ ∃ c0, post.head? = some c0 ∧ pwordChar c0 = false) := by
  induction A with
  | nil =>
      rcases B with _ | ⟨q, B2⟩
      · exact ⟨[], [], by simp [joinSpace], Or.inl rfl, Or.inl rfl⟩
      · refine ⟨[], ' ' :: joinSpace (q :: B2), ?_, Or.inl rfl, Or.inr ⟨' ', rfl, by decide⟩⟩
        simp [joinSpace]
  | cons a A ih =>
      rcases ih with ⟨pre, post, hj, hpre, hpost⟩
      refine ⟨a ++ ' ' :: pre, post, ?_, ?_, hpost⟩
      · rw [List.cons_append, joinSpace_cons a (A ++ p :: B) (by simp), hj]
        simp
      · right
        rcases hpre with hnil | ⟨c0, hc0, hw0⟩
        · subst hnil
          exact ⟨' ', by rw [List.getLast?_concat], by decide⟩
        · refine ⟨c0, ?_, hw0⟩
          rcases pre with _ | ⟨y, ys⟩
          · exact Option.noConfusion hc0
          · rw [List.getLast?_append, List.getLast?_cons_cons, hc0]
            rfl

/-- A metadata value in the case model: a string, or an opaque non-string. -/
inductive MetaVal where
  | str : List Char → MetaVal
  | other : ℕ → MetaVal
  deriving DecidableEq

/-- The case-data fields the compliance agent reads and redacts.  The three
basic fields are modelled as strings where the empty string stands for an
absent (or empty, hence non-truthy) field; metadata is an insertion-ordered
association list. -/
structure PyCase where
  title : List Char
  description : List Char
  customer_id : List Char
  metadata : List (List Char × MetaVal)
  deriving DecidableEq

/-- The parts joined by `_extract_text`: the truthy basic fields, then one
`f"{key}: {value}"` per string-valued metadata entry. -/
def textParts (c : PyCase) : List (List Char) :=
  ((if c.title = [] then [] else [c.title]) ++
    (if c.description = [] then [] else [c.description]) ++
    (if c.customer_id = [] then [] else [c.customer_id])) ++
  c.metadata.filterMap (fun kv =>
    match kv.2 with
    | MetaVal.str s => some (kv.1 ++ ':' :: ' ' :: s)
    | MetaVal.other _ => none)

/-- `ComplianceAgent._extract_text`. -/
def extractText (c : PyCase) : List Char := joinSpace (textParts c)

/-- One application of `re.sub` to a metadata value (strings only). -/
def redactMeta (P : PiiPattern) : MetaVal → MetaVal
  | MetaVal.str s => MetaVal.str (subPat P s)
  | v => v

/-- `ComplianceAgent._redact_content` for one pattern: substitute in the three
basic fields and in every string-valued metadata entry. -/
def redactContent (P : PiiPattern) (c : PyCase) : PyCase :=
  { title := subPat P c.title
    description := subPat P c.description
    customer_id := subPat P c.customer_id
    metadata := c.metadata.map (fun kv => (kv.1, redactMeta P kv.2)) }

/-- Text occurs somewhere in the string: some position carries a match.  This
models `re.findall(pattern, text) != []`. -/
def hasMatchFrom (P : PiiPattern) : Option Char → List Char → Bool
  | _, [] => false
  | prev, c :: rest => (matchAt P prev (c :: rest)).isSome || hasMatchFrom P (some c) rest

def hasMatch (P : PiiPattern) (s : List Char) : Bool := hasMatchFrom P none s

/-- `ComplianceAgent._detect_pii`, restricted to its `redacted_content`
output: apply `_redact_content` for each pattern that matches the extracted
case text, in pattern-table order. -/
def detectRedact (ps : List PiiPattern) (c : PyCase) : PyCase :=
  (ps.filter (fun P => hasMatch P (extractText c))).foldl
    (fun acc P => redactContent P acc) c

theorem hasMatchFrom_false (P : PiiPattern) :
    ∀ (s : List Char) (prev : Option Char), hasMatchFrom P prev s = false →
      NoMatch P prev s := by
  intro s
  induction s with
  | nil => intro prev _; exact noMatch_nil P prev
  | cons c rest ih =>
      intro prev h
      rw [hasMatchFrom, Bool.or_eq_false_iff] at h
      rw [noMatch_cons_iff]
      constructor
      · intro len
        cases hok : patOk P prev (c :: rest) len
        · rfl
        exfalso
        have hnone : matchAt P prev (c :: rest) = none := by
          rcases hm : matchAt P prev (c :: rest) with _ | k
          · rfl
          · rw [hm] at h
            simp at h
        exact matchAt_complete P prev (c :: rest) len hok hnone
      · exact ih (some c) h.2

/-- Sequential substitution of a list of patterns over one string. -/
def redactAll (ps : List PiiPattern) (s : List Char) : List Char :=
  ps.foldl (fun acc P => subPat P acc) s

/-- Sequential substitution over one metadata value. -/
def redactAllMeta (ps : List PiiPattern) (v : MetaVal) : MetaVal :=
  ps.foldl (fun acc P => redactMeta P acc) v

theorem redactAll_noMatch (Q : PiiPattern) (hQ : PatternFacts Q) :
    ∀ (ps : List PiiPattern), (∀ P ∈ ps, PatternFacts P) →
      ∀ s, NoMatch Q none s → NoMatch Q none (redactAll ps s) := by
  intro ps
  induction ps with
  | nil => intro _ s h; exact h
  | cons P ps ih =>
      intro hps s h
      show NoMatch Q none (redactAll ps (subPat P s))
      exact ih (fun R hR => hps R (List.mem_cons_of_mem P hR)) (subPat P s)
        (subPat_noCreate P Q (hps P (List.mem_cons_self _ _)) hQ s h)

theorem redactAll_member (Q : PiiPattern) (hQ : PatternFacts Q) :
    ∀ (ps : List PiiPattern), (∀ P ∈ ps, PatternFacts P) → Q ∈ ps →
      ∀ s, NoMatch Q none (redactAll ps s) := by
  intro ps
  induction ps with
  | nil => intro _ h; exact absurd h (List.not_mem_nil Q)
  | cons P ps ih =>
      intro hps hmem s
      show NoMatch Q none (redactAll ps (subPat P s))
      rcases List.mem_cons.mp hmem with heq | hmem2
      · subst heq
        exact redactAll_noMatch Q hQ ps (fun R hR => hps R (List.mem_cons_of_mem Q hR))
          (subPat Q s) (subPat_self_noMatch Q hQ s)
      · exact ih (fun R hR => hps R (List.mem_cons_of_mem P hR)) hmem2 (subPat P s)

theorem foldl_redact_title (ps : List PiiPattern) :
    ∀ c : PyCase,
      (ps.foldl (fun acc P => redactContent P acc) c).title = redactAll ps c.title := by
  induction ps with
  | nil => intro c; rfl
  | cons P ps ih =>
      intro c
      show (ps.foldl (fun acc P => redactContent P acc) (redactContent P c)).title = _
      rw [ih (redactContent P c)]
      rfl

theorem foldl_redact_description (ps : List PiiPattern) :
    ∀ c : PyCase,
      (ps.foldl (fun acc P => redactContent P acc) c).description =
        redactAll ps c.description := by
  induction ps with
  | nil => intro c; rfl
  | cons P ps ih =>
      intro c
      show (ps.foldl (fun acc P => redactContent P acc) (redactContent P c)).description = _
      rw [ih (redactContent P c)]
      rfl

theorem foldl_redact_customer (ps : List PiiPattern) :
    ∀ c : PyCase,
      (ps.foldl (fun acc P => redactContent P acc) c).customer_id =
        redactAll ps c.customer_id := by
  induction ps with
  | nil => intro c; rfl
  | cons P ps ih =>
      intro c
      show (ps.foldl (fun acc P => redactContent P acc) (redactContent P c)).customer_id = _
      rw [ih (redactContent P c)]
      rfl

theorem redactAllMeta_str (ps : List PiiPattern) :
    ∀ s, redactAllMeta ps (MetaVal.str s) = MetaVal.str (redactAll ps s) := by
  induction ps with
  | nil => intro s; rfl
  | cons P ps ih => intro s; exact ih (subPat P s)

theorem redactAllMeta_other (ps : List PiiPattern) (n : ℕ) :
    redactAllMeta ps (MetaVal.other n) = MetaVal.other n := by
  induction ps with
  | nil => rfl
  | cons P ps ih => exact ih

theorem foldl_redact_metadata (ps : List PiiPattern) :
    ∀ c : PyCase,
      (ps.foldl (fun acc P => redactContent P acc) c).metadata =
        c.metadata.map (fun kv => (kv.1, redactAllMeta ps kv.2)) := by
  induction ps with
  | nil =>
      intro c
      symm
      simp [redactAllMeta]
  | cons P ps ih =>
      intro c
      show (ps.foldl (fun acc P => redactContent P acc) (redactContent P c)).metadata = _
      rw [ih (redactContent P c)]
      show (c.metadata.map fun kv => (kv.1, redactMeta P kv.2)).map
          (fun kv => (kv.1, redactAllMeta ps kv.2)) = _
      rw [List.map_map]
      rfl

/-- No pattern-`Q` match in any string field of the case. -/
def NoPii (Q : PiiPattern) (c : PyCase) : Prop :=
  NoMatch Q none c.title ∧ NoMatch Q none c.description ∧
    NoMatch Q none c.customer_id ∧
    ∀ k s, (k, MetaVal.str s) ∈ c.metadata → NoMatch Q none s

/-- `_redact_content` is the identity on a case with no `P`-matches. -/
theorem redactContent_id (P : PiiPattern) (c : PyCase) (h : NoPii P c) :
    redactContent P c = c := by
  rcases c with ⟨t, d, ci, m⟩
  rcases h with ⟨h1, h2, h3, h4⟩
  show PyCase.mk (subPat P t) (subPat P d) (subPat P ci)
      (m.map fun kv => (kv.1, redactMeta P kv.2)) = PyCase.mk t d ci m
  have e4 : (m.map fun kv => (kv.1, redactMeta P kv.2)) = m := by
    have hcongr : ∀ kv ∈ m, (kv.1, redactMeta P kv.2) = id kv := by
      rintro ⟨k, v⟩ hkv
      rcases v with s | n
      · show (k, MetaVal.str (subPat P s)) = (k, MetaVal.str s)
        rw [subPat_id P s (h4 k s hkv)]
      · rfl
    rw [List.map_congr_left hcongr, List.map_id]
  rw [subPat_id P t h1, subPat_id P d h2, subPat_id P ci h3, e4]

theorem foldl_redact_id (ps : List PiiPattern) :
    ∀ c : PyCase, (∀ P ∈ ps, NoPii P c) →
      ps.foldl (fun acc P => redactContent P acc) c = c := by
  induction ps with
  | nil => intro c _; rfl
  | cons P ps ih =>
      intro c h
      show ps.foldl (fun acc P => redactContent P acc) (redactContent P c) = c
      rw [redactContent_id P c (h P (List.mem_cons_self _ _))]
      exact ih c (fun Q hQ => h Q (List.mem_cons_of_mem P hQ))

/-- A match-free case text makes every whole part match-free. -/
theorem noMatch_textPart (Q : PiiPattern) (c : PyCase)
    (hno : NoMatch Q none (extractText c)) (p : List Char) (hp : p ∈ textParts c) :
    NoMatch Q none p := by
  rcases List.append_of_mem hp with ⟨A, B, hAB⟩
  rcases joinSpace_decomp A p B with ⟨pre, post, hj, hpre, hpost⟩
  have htext : extractText c = pre ++ (p ++ post) := by
    unfold extractText
    rw [hAB, hj]
  exact noMatch_field Q pre p post (htext ▸ hno) hpre hpost

/-- A match-free case text makes every string metadata value match-free: the
value sits after `": "` inside its part. -/
theorem noMatch_metaValue (Q : PiiPattern) (c : PyCase)
    (hno : NoMatch Q none (extractText c)) (k s : List Char)
    (hmem : (k, MetaVal.str s) ∈ c.metadata) : NoMatch Q none s := by
  have hp : (k ++ ':' :: ' ' :: s) ∈ textParts c := by
    unfold textParts
    refine List.mem_append_right _ ?_
    exact List.mem_filterMap.mpr ⟨(k, MetaVal.str s), hmem, rfl⟩
  rcases List.append_of_mem hp with ⟨A, B, hAB⟩
  rcases joinSpace_decomp A (k ++ ':' :: ' ' :: s) B with ⟨pre, post, hj, hpre, hpost⟩
  have htext : extractText c = (pre ++ (k ++ [':', ' '])) ++ (s ++ post) := by
    unfold extractText
    rw [hAB, hj]
    simp
  refine noMatch_field Q (pre ++ (k ++ [':', ' '])) s post (htext ▸ hno) ?_ hpost
  right
  refine ⟨' ', ?_, by decide⟩
  rw [List.getLast?_append, List.getLast?_append]
  rfl

theorem title_mem_textParts (c : PyCase) (h : ¬ c.title = []) :
    c.title ∈ textParts c := by
  unfold textParts
  rw [if_neg h]
  exact List.mem_append_left _ (List.mem_append_left _
    (List.mem_append_left _ (List.mem_cons_self _ _)))

theorem description_mem_textParts (c : PyCase) (h : ¬ c.description = []) :
    c.description ∈ textParts c := by
  unfold textParts
  rw [if_neg h]
  exact List.mem_append_left _ (List.mem_append_left _
    (List.mem_append_right _ (List.mem_cons_self _ _)))

theorem customer_mem_textParts (c : PyCase) (h : ¬ c.customer_id = []) :
    c.customer_id ∈ textParts c := by
  unfold textParts
  rw [if_neg h]
  exact List.mem_append_left _ (List.mem_append_right _ (List.mem_cons_self _ _))

/-- A match-free case text makes every redactable string field match-free. -/
theorem noPii_of_text (Q : PiiPattern) (c : PyCase)
    (hno : NoMatch Q none (extractText c)) : NoPii Q c := by
  refine ⟨?_, ?_, ?_, fun k s hmem => noMatch_metaValue Q c hno k s hmem⟩
  · by_cases h : c.title = []
    · rw [h]; exact noMatch_nil Q none
    · exact noMatch_textPart Q c hno c.title (title_mem_textParts c h)
  · by_cases h : c.description = []
    · rw [h]; exact noMatch_nil Q none
    · exact noMatch_textPart Q c hno c.description (description_mem_textParts c h)
  · by_cases h : c.customer_id = []
    · rw [h]; exact noMatch_nil Q none
    · exact noMatch_textPart Q c hno c.customer_id (customer_mem_textParts c h)

/-- `NoPii` is preserved by a full multi-pattern redaction pass. -/
theorem noPii_redactAll (Q : PiiPattern) (hQ : PatternFacts Q)
    (ps : List PiiPattern) (hps : ∀ P ∈ ps, PatternFacts P) (c : PyCase)
    (h : NoPii Q c) :
    NoPii Q (ps.foldl (fun acc P => redactContent P acc) c) := by
  refine ⟨?_, ?_, ?_, ?_⟩
  · rw [foldl_redact_title]
    exact redactAll_noMatch Q hQ ps hps c.title h.1
  · rw [foldl_redact_description]
    exact redactAll_noMatch Q hQ ps hps c.description h.2.1
  · rw [foldl_redact_customer]
    exact redactAll_noMatch Q hQ ps hps c.customer_id h.2.2.1
  · intro k s hmem
    rw [foldl_redact_metadata] at hmem
    rcases List.mem_map.mp hmem with ⟨⟨k0, v0⟩, hkv0, heq⟩
    rcases v0 with s0 | n0
    · rw [redactAllMeta_str] at heq
      have hk : k0 = k := congrArg Prod.fst heq
      have hs : MetaVal.str (redactAll ps s0) = MetaVal.str s := congrArg Prod.snd heq
      have hs2 : redactAll ps s0 = s := by injection hs
      rw [← hs2]
      exact redactAll_noMatch Q hQ ps hps s0 (h.2.2.2 k0 s0 (hk ▸ hkv0))
    · rw [redactAllMeta_other] at heq
      have hs : MetaVal.other n0 = MetaVal.str s := congrArg Prod.snd heq
      exact MetaVal.noConfusion hs

/-- `NoPii` for a pattern that is itself applied in the pass. -/
theorem noPii_member (Q : PiiPattern) (hQ : PatternFacts Q)
    (ps : List PiiPattern) (hps : ∀ P ∈ ps, PatternFacts P) (hmem : Q ∈ ps)
    (c : PyCase) :
    NoPii Q (ps.foldl (fun acc P => redactContent P acc) c) := by
  refine ⟨?_, ?_, ?_, ?_⟩
  · rw [foldl_redact_title]
    exact redactAll_member Q hQ ps hps hmem c.title
  · rw [foldl_redact_description]
    exact redactAll_member Q hQ ps hps hmem c.description
  · rw [foldl_redact_customer]
    exact redactAll_member Q hQ ps hps hmem c.customer_id
  · intro k s hmem2
    rw [foldl_redact_metadata] at hmem2
    rcases List.mem_map.mp hmem2 with ⟨⟨k0, v0⟩, hkv0, heq⟩
    rcases v0 with s0 | n0
    · rw [redactAllMeta_str] at heq
      have hs : MetaVal.str (redactAll ps s0) = MetaVal.str s := congrArg Prod.snd heq
      have hs2 : redactAll ps s0 = s := by injection hs
      rw [← hs2]
      exact redactAll_member Q hQ ps hps hmem s0
    · rw [redactAllMeta_other] at heq
      have hs : MetaVal.other n0 = MetaVal.str s := congrArg Prod.snd heq
      exact MetaVal.noConfusion hs

/-- After `_detect_pii`, no pattern of the table matches any string field of
the redacted content. -/
theorem detectRedact_noPii (ps : List PiiPattern) (hps : ∀ P ∈ ps, PatternFacts P)
    (c : PyCase) (Q : PiiPattern) (hQ : Q ∈ ps) :
    NoPii Q (detectRedact ps c) := by
  have hQf := hps Q hQ
  have happ : ∀ P ∈ ps.filter (fun P => hasMatch P (extractText c)), PatternFacts P :=
    fun P hP => hps P (List.mem_of_mem_filter hP)
  cases hq : hasMatch Q (extractText c)
  · exact noPii_redactAll Q hQf _ happ c
      (noPii_of_text Q c (hasMatchFrom_false Q (extractText c) none hq))
  · exact noPii_member Q hQf _ happ (List.mem_filter.mpr ⟨hQ, hq⟩) c

/-- Idempotence of the detect-and-redact pass, for any pattern table whose
patterns satisfy the interface facts. -/
theorem detectRedact_idem (ps : List PiiPattern) (hps : ∀ P ∈ ps, PatternFacts P)
    (c : PyCase) :
    detectRedact ps (detectRedact ps c) = detectRedact ps c := by
  show (ps.filter _).foldl (fun acc P => redactContent P acc) (detectRedact ps c) = _
  apply foldl_redact_id
  intro P hP
  exact detectRedact_noPii ps hps c P (List.mem_of_mem_filter hP)

/-! The seven concrete PII patterns (`compliance.py` `pii_patterns`), as
slice-validity parsers.  Character classes follow the ASCII reading of the
regexes (`\d`, `\w`, `\s`). -/

/-- `[A-Za-z0-9._%+-]`, the email local part. -/
def emailLocChar (c : Char) : Bool :=
  c.isAlphanum || c == '.' || c == '_' || c == '%' || c == '+' || c == '-'

/-- `[A-Za-z0-9.-]`, the email domain part. -/
def emailDomChar (c : Char) : Bool := c.isAlphanum || c == '.' || c == '-'

/-- `[A-Z|a-z]`, the email top-level-domain class (with the literal `|`). -/
def emailTldChar (c : Char) : Bool := c.isAlpha || c == '|'

/-- `[A-Za-z\s]`, the middle of a street address. -/
def letterSpace (c : Char) : Bool := c.isAlpha || pspace c

/-- `[:\s]`, the separator run after a date-of-birth prefix. -/
def dobSepChar (c : Char) : Bool := c == ':' || pspace c

/-- The slash-or-dash date separator class.
-/
def slashDash (c : Char) : Bool := c == '/' || c == '-'

/-- Consume exactly `n` digits. -/
def eatDigits : ℕ → List Char → Option (List Char)
  | 0, t => some t
  | _ + 1, [] => none
  | n + 1, c :: t => if c.isDigit then eatDigits n t else none

/-- Consume exactly one character of class `p`. -/
def eatClass (p : Char → Bool) (t : List Char) : Option (List Char) :=
  match t with
  | c :: r => if p c then some r else none
  | [] => none

/-- Greedily consume one optional character of class `p` (`X?`). -/
def eatIf (p : Char → Bool) (t : List Char) : List Char :=
  match t with
  | c :: r => if p c then r else t
  | [] => t

/-- Greedily consume one or two digits (`\d{1,2}`). -/
def eatDigits12 (t : List Char) : Option (List Char) :=
  match t with
  | c :: d :: r =>
      if c.isDigit then (if d.isDigit then some r else some (d :: r)) else none
  | [c] => if c.isDigit then some [] else none
  | [] => none

/-- Case-insensitive literal prefix (`re.IGNORECASE`). -/
def matchPrefixCI : List Char → List Char → Option (List Char)
  | [], t => some t
  | _ :: _, [] => none
  | p :: ps2, c :: t =>
      if c.toLower == p.toLower then matchPrefixCI ps2 t else none

/-- Split at the first occurrence of `a`. -/
def splitAtChar (a : Char) : List Char → Option (List Char × List Char)
  | [] => none
  | c :: t =>
      if c == a then some ([], t)
      else
        match splitAtChar a t with
        | some (l, r) => some (c :: l, r)
        | none => none

/-- A partial parser consumes only characters of class `p`. -/
def Eats (F : List Char → Option (List Char)) (p : Char → Bool) : Prop :=
  ∀ t r, F t = some r → ∃ u, t = u ++ r ∧ ∀ c ∈ u, p c = true

theorem eats_bind {F G : List Char → Option (List Char)} {p q : Char → Bool}
    (hF : Eats F p) (hG : Eats G q) :
    Eats (fun t => (F t).bind G) (fun c => p c || q c) := by
  intro t r h
  replace h : (F t).bind G = some r := h
  rcases hm : F t with _ | m
  · rw [hm] at h; exact Option.noConfusion h
  · rw [hm, Option.some_bind] at h
    rcases hF t m hm with ⟨u1, hu1, hp1⟩
    rcases hG m r h with ⟨u2, hu2, hp2⟩
    refine ⟨u1 ++ u2, by rw [hu1, hu2, List.append_assoc], ?_⟩
    intro c hc
    rw [Bool.or_eq_true]
    rcases List.mem_append.mp hc with h1 | h2
    · exact Or.inl (hp1 c h1)
    · exact Or.inr (hp2 c h2)

theorem eats_mono {F : List Char → Option (List Char)} {p q : Char → Bool}
    (hF : Eats F p) (himp : ∀ c, p c = true → q c = true) : Eats F q := by
  intro t r h
  rcases hF t r h with ⟨u, hu, hp⟩
  exact ⟨u, hu, fun c hc => himp c (hp c hc)⟩

theorem eatDigits_split :
    ∀ (n : ℕ) (t r : List Char), eatDigits n t = some r →
      ∃ u, t = u ++ r ∧ u.length = n ∧ ∀ c ∈ u, c.isDigit = true := by
  intro n
  induction n with
  | zero =>
      intro t r h
      simp only [eatDigits, Option.some.injEq] at h
      subst h
      exact ⟨[], rfl, rfl, by simp⟩
  | succ n ih =>
      intro t r h
      match t with
      | [] => exact absurd h (by simp [eatDigits])
      | c :: t2 =>
          simp only [eatDigits] at h
          by_cases hc : c.isDigit = true
          · rw [if_pos hc] at h
            rcases ih t2 r h with ⟨u, h1, h2, h3⟩
            refine ⟨c :: u, by rw [List.cons_append, ← h1], by simp [h2], ?_⟩
            intro x hx
            rcases List.mem_cons.mp hx with hx1 | hx2
            · rw [hx1]; exact hc
            · exact h3 x hx2
          · rw [if_neg hc] at h
            exact Option.noConfusion h

theorem eatDigits_eats (n : ℕ) : Eats (eatDigits n) (fun c => c.isDigit) := by
  intro t r h
  rcases eatDigits_split n t r h with ⟨u, h1, _, h3⟩
  exact ⟨u, h1, h3⟩

theorem eatClass_eats (p : Char → Bool) : Eats (eatClass p) p := by
  intro t r h
  match t with
  | [] => exact absurd h (by simp [eatClass])
  | c :: t2 =>
      simp only [eatClass] at h
      by_cases hc : p c = true
      · rw [if_pos hc] at h
        rcases h with ⟨⟩
        refine ⟨[c], rfl, ?_⟩
        intro x hx
        rcases List.mem_cons.mp hx with hx1 | hx2
        · rw [hx1]; exact hc
        · exact absurd hx2 (List.not_mem_nil x)
      · rw [if_neg hc] at h
        exact Option.noConfusion h

theorem eatIf_split (p : Char → Bool) (t : List Char) :
    ∃ u, t = u ++ eatIf p t ∧ ∀ c ∈ u, p c = true := by
  match t with
  | [] => exact ⟨[], rfl, by simp⟩
  | c :: r =>
      by_cases hc : p c = true
      · refine ⟨[c], ?_, ?_⟩
        · show c :: r = [c] ++ eatIf p (c :: r)
          simp [eatIf, hc]
        · intro x hx
          rcases List.mem_cons.mp hx with hx1 | hx2
          · rw [hx1]; exact hc
          · exact absurd hx2 (List.not_mem_nil x)
      · refine ⟨[], ?_, by simp⟩
        show c :: r = [] ++ eatIf p (c :: r)
        simp [eatIf, hc]

theorem eatIf_eats (p : Char → Bool) : Eats (fun t => some (eatIf p t)) p := by
  intro t r h
  rcases h with ⟨⟩
  exact eatIf_split p t

theorem eatDigits12_eats : Eats eatDigits12 (fun c => c.isDigit) := by
  intro t r h
  match t with
  | [] => exact absurd h (by simp [eatDigits12])
  | [c] =>
      simp only [eatDigits12] at h
      by_cases hc : c.isDigit = true
      · rw [if_pos hc] at h
        rcases h with ⟨⟩
        refine ⟨[c], rfl, ?_⟩
        intro x hx
        rcases List.mem_cons.mp hx with hx1 | hx2
        · rw [hx1]; exact hc
        · exact absurd hx2 (List.not_mem_nil x)
      · rw [if_neg hc] at h
        exact Option.noConfusion h
  | c :: d :: r2 =>
      simp only [eatDigits12] at h
      by_cases hc : c.isDigit = true
      · rw [if_pos hc] at h
        by_cases hd : d.isDigit = true
        · rw [if_pos hd] at h
          rcases h with ⟨⟩
          refine ⟨[c, d], rfl, ?_⟩
          intro x hx
          rcases List.mem_cons.mp hx with hx1 | hx2
          · rw [hx1]; exact hc
          rcases List.mem_cons.mp hx2 with hx3 | hx4
          · rw [hx3]; exact hd
          · exact absurd hx4 (List.not_mem_nil x)
        · rw [if_neg hd] at h
          rcases h with ⟨⟩
          refine ⟨[c], rfl, ?_⟩
          intro x hx
          rcases List.mem_cons.mp hx with hx1 | hx2
          · rw [hx1]; exact hc
          · exact absurd hx2 (List.not_mem_nil x)
      · rw [if_neg hc] at h
        exact Option.noConfusion h

/-- A successful 1-2 digit group is nonempty and starts with a digit. -/
theorem eatDigits12_split (t r : List Char) (h : eatDigits12 t = some r) :
    ∃ c u, t = (c :: u) ++ r ∧ c.isDigit = true ∧ ∀ x ∈ u, x.isDigit = true := by
  match t with
  | [] => exact absurd h (by simp [eatDigits12])
  | [c] =>
      simp only [eatDigits12] at h
      by_cases hc : c.isDigit = true
      · rw [if_pos hc] at h
        rcases h with ⟨⟩
        exact ⟨c, [], rfl, hc, by simp⟩
      · rw [if_neg hc] at h
        exact Option.noConfusion h
  | c :: d :: r2 =>
      simp only [eatDigits12] at h
      by_cases hc : c.isDigit = true
      · rw [if_pos hc] at h
        by_cases hd : d.isDigit = true
        · rw [if_pos hd] at h
          rcases h with ⟨⟩
          refine ⟨c, [d], rfl, hc, ?_⟩
          intro x hx
          rcases List.mem_cons.mp hx with hx1 | hx2
          · rw [hx1]; exact hd
          · exact absurd hx2 (List.not_mem_nil x)
        · rw [if_neg hd] at h
          rcases h with ⟨⟩
          exact ⟨c, [], rfl, hc, by simp⟩
      · rw [if_neg hc] at h
        exact Option.noConfusion h

theorem matchPrefixCI_split :
    ∀ (p t r : List Char), matchPrefixCI p t = some r →
      ∃ u, t = u ++ r ∧ ∀ c ∈ u, ∃ x ∈ p, c.toLower = x.toLower := by
  intro p
  induction p with
  | nil =>
      intro t r h
      simp only [matchPrefixCI, Option.some.injEq] at h
      subst h
      exact ⟨[], rfl, by simp⟩
  | cons x p ih =>
      intro t r h
      match t with
      | [] => exact absurd h (by simp [matchPrefixCI])
      | c :: t2 =>
          simp only [matchPrefixCI] at h
          by_cases hc : (c.toLower == x.toLower) = true
          · rw [if_pos hc] at h
            rcases ih t2 r h with ⟨u, h1, h3⟩
            refine ⟨c :: u, by rw [List.cons_append, ← h1], ?_⟩
            intro y hy
            rcases List.mem_cons.mp hy with hy1 | hy2
            · exact ⟨x, List.mem_cons_self _ _, by rw [hy1]; exact eq_of_beq hc⟩
            · rcases h3 y hy2 with ⟨z, hz1, hz2⟩
              exact ⟨z, List.mem_cons_of_mem x hz1, hz2⟩
          · rw [if_neg hc] at h
            exact Option.noConfusion h

theorem splitAtChar_eq (a : Char) :
    ∀ (t l r : List Char), splitAtChar a t = some (l, r) → t = l ++ a :: r := by
  intro t
  induction t with
  | nil => intro l r h; exact absurd h (by simp [splitAtChar])
  | cons c t2 ih =>
      intro l r h
      simp only [splitAtChar] at h
      by_cases hc : (c == a) = true
      · rw [if_pos hc] at h
        rcases h with ⟨⟩
        rw [eq_of_beq hc]
        rfl
      · rw [if_neg hc] at h
        rcases hm : splitAtChar a t2 with _ | ⟨l2, r2⟩
        · rw [hm] at h; exact Option.noConfusion h
        · rw [hm] at h
          injection h with h2
          have hl : l = c :: l2 := (congrArg Prod.fst h2).symm
          have hr : r = r2 := (congrArg Prod.snd h2).symm
          rw [hl, hr, List.cons_append, ← ih l2 r2 hm]

/-- The two `\b` conditions framing a match slice. -/
def edgeOk (b : Bool) (t : List Char) (bn : Bool) : Bool :=
  match t.head?, t.getLast? with
  | some c, some d => (b != pwordChar c) && (pwordChar d != bn)
  | _, _ => false

theorem edgeOk_ne_nil (b bn : Bool) (h : edgeOk b [] bn = true) : False := by
  simp [edgeOk] at h

theorem edgeOk_start (b bn : Bool) (c : Char) (t : List Char)
    (h : edgeOk b (c :: t) bn = true) : b ≠ pwordChar c := by
  unfold edgeOk at h
  rcases hg : (c :: t).getLast? with _ | d
  · rw [show (c :: t).head? = some c from rfl, hg] at h
    exact Bool.noConfusion h
  · rw [show (c :: t).head? = some c from rfl, hg] at h
    simp only [Bool.and_eq_true, bne_iff_ne, ne_eq] at h
    exact h.1

theorem edgeOk_end (b bn : Bool) (t : List Char) (d : Char)
    (h : edgeOk b t bn = true) (hd : t.getLast? = some d) : pwordChar d ≠ bn := by
  unfold edgeOk at h
  rcases hh : t.head? with _ | c
  · rw [hh] at h
    exact Bool.noConfusion h
  · rw [hh, hd] at h
    simp only [Bool.and_eq_true, bne_iff_ne, ne_eq] at h
    exact h.2

/-- Build the pattern interface facts from a slice parser together with its
bracket-freeness and digit-or-at-mark properties. -/
theorem patternFacts_of_struct (P : PiiPattern) (structX : List Char → Bool)
    (hdef : ∀ b t bn, P.okCore b t bn = (structX t && edgeOk b t bn))
    (hnb : ∀ t, structX t = true → ∀ c ∈ t, c ≠ '[' ∧ c ≠ ']')
    (hmk : ∀ t, structX t = true → ∃ c ∈ t, c.isDigit ∨ c = '@')
    (htok : ∃ inner, P.token = '[' :: inner ++ [']'] ∧
      ∀ c ∈ inner, ¬ c.isDigit ∧ c ≠ '@' ∧ c ≠ '[' ∧ c ≠ ']') :
    PatternFacts P := by
  refine ⟨?_, ?_, ?_, ?_, ?_, htok⟩
  · intro b t bn h
    rw [hdef] at h
    simp only [Bool.and_eq_true] at h
    intro hnil
    subst hnil
    exact edgeOk_ne_nil b bn h.2
  · intro b t bn h
    rw [hdef] at h
    simp only [Bool.and_eq_true] at h
    exact hnb t h.1
  · intro b t bn h
    rw [hdef] at h
    simp only [Bool.and_eq_true] at h
    exact hmk t h.1
  · intro b t bn c t2 h ht
    rw [hdef] at h
    simp only [Bool.and_eq_true] at h
    subst ht
    exact edgeOk_start b bn c t2 h.2
  · intro b t bn c h hlast
    rw [hdef] at h
    simp only [Bool.and_eq_true] at h
    exact edgeOk_end b bn t c h.2 hlast

theorem isDigit_ne_bracket (c : Char) (h : c.isDigit = true) : c ≠ '[' ∧ c ≠ ']' := by
  refine ⟨fun h2 => ?_, fun h2 => ?_⟩ <;> subst h2 <;> exact absurd h (by decide)

theorem isAlphanum_ne_bracket (c : Char) (h : c.isAlphanum = true) :
    c ≠ '[' ∧ c ≠ ']' := by
  refine ⟨fun h2 => ?_, fun h2 => ?_⟩ <;> subst h2 <;> exact absurd h (by decide)

theorem isAlpha_ne_bracket (c : Char) (h : c.isAlpha = true) : c ≠ '[' ∧ c ≠ ']' := by
  refine ⟨fun h2 => ?_, fun h2 => ?_⟩ <;> subst h2 <;> exact absurd h (by decide)

theorem pspace_ne_bracket (c : Char) (h : pspace c = true) : c ≠ '[' ∧ c ≠ ']' := by
  refine ⟨fun h2 => ?_, fun h2 => ?_⟩ <;> subst h2 <;> exact absurd h (by decide)

theorem psep_ne_bracket (c : Char) (h : psep c = true) : c ≠ '[' ∧ c ≠ ']' := by
  refine ⟨fun h2 => ?_, fun h2 => ?_⟩ <;> subst h2 <;> exact absurd h (by decide)

theorem emailLocChar_ne_bracket (c : Char) (h : emailLocChar c = true) :
    c ≠ '[' ∧ c ≠ ']' := by
  refine ⟨fun h2 => ?_, fun h2 => ?_⟩ <;> subst h2 <;> exact absurd h (by decide)

theorem emailDomChar_ne_bracket (c : Char) (h : emailDomChar c = true) :
    c ≠ '[' ∧ c ≠ ']' := by
  refine ⟨fun h2 => ?_, fun h2 => ?_⟩ <;> subst h2 <;> exact absurd h (by decide)

theorem emailTldChar_ne_bracket (c : Char) (h : emailTldChar c = true) :
    c ≠ '[' ∧ c ≠ ']' := by
  refine ⟨fun h2 => ?_, fun h2 => ?_⟩ <;> subst h2 <;> exact absurd h (by decide)

theorem letterSpace_ne_bracket (c : Char) (h : letterSpace c = true) :
    c ≠ '[' ∧ c ≠ ']' := by
  refine ⟨fun h2 => ?_, fun h2 => ?_⟩ <;> subst h2 <;> exact absurd h (by decide)

theorem dobSepChar_ne_bracket (c : Char) (h : dobSepChar c = true) :
    c ≠ '[' ∧ c ≠ ']' := by
  refine ⟨fun h2 => ?_, fun h2 => ?_⟩ <;> subst h2 <;> exact absurd h (by decide)

theorem slashDash_ne_bracket (c : Char) (h : slashDash c = true) :
    c ≠ '[' ∧ c ≠ ']' := by
  refine ⟨fun h2 => ?_, fun h2 => ?_⟩ <;> subst h2 <;> exact absurd h (by decide)

theorem toLower_ne_bracket (c x : Char) (h : c.toLower = x.toLower)
    (hx1 : x.toLower ≠ '[') (hx2 : x.toLower ≠ ']') : c ≠ '[' ∧ c ≠ ']' := by
  refine ⟨fun h2 => ?_, fun h2 => ?_⟩ <;> subst h2
  · exact hx1 (by rw [← h]; decide)
  · exact hx2 (by rw [← h]; decide)

/-! ### The seven slice parsers -/

/-- `\d{3}-\d{2}-\d{4}` (ssn). -/
def parseSsn (t : List Char) : Option (List Char) :=
  (eatDigits 3 t).bind fun t1 =>
    (eatClass (fun c => c == '-') t1).bind fun t2 =>
      (eatDigits 2 t2).bind fun t3 =>
        (eatClass (fun c => c == '-') t3).bind fun t4 => eatDigits 4 t4

def structSsn (t : List Char) : Bool :=
  match parseSsn t with
  | some r => r.isEmpty
  | none => false

/-- `\d{4}[\s-]?\d{4}[\s-]?\d{4}[\s-]?\d{4}` (credit card). -/
def parseCc (t : List Char) : Option (List Char) :=
  (eatDigits 4 t).bind fun t1 =>
    (some (eatIf psep t1)).bind fun t2 =>
      (eatDigits 4 t2).bind fun t3 =>
        (some (eatIf psep t3)).bind fun t4 =>
          (eatDigits 4 t4).bind fun t5 =>
            (some (eatIf psep t5)).bind fun t6 => eatDigits 4 t6

def structCc (t : List Char) : Bool :=
  decide (16 ≤ t.length) &&
    match parseCc t with
    | some r => r.isEmpty
    | none => false

/-- `\(?\d{3}\)?[\s-]?\d{3}[\s-]?\d{4}` (phone). -/
def parsePhone (t : List Char) : Option (List Char) :=
  (some (eatIf (fun c => c == '(') t)).bind fun t1 =>
    (eatDigits 3 t1).bind fun t2 =>
      (some (eatIf (fun c => c == ')') t2)).bind fun t3 =>
        (some (eatIf psep t3)).bind fun t4 =>
          (eatDigits 3 t4).bind fun t5 =>
            (some (eatIf psep t5)).bind fun t6 => eatDigits 4 t6

def structPhone (t : List Char) : Bool :=
  match parsePhone t with
  | some r => r.isEmpty
  | none => false

/-- `\d{8,}` (account number). -/
def structAccount (t : List Char) : Bool :=
  decide (8 ≤ t.length) && t.all (fun c => c.isDigit)

/-- The maximal trailing top-level-domain run of the part after `@`. -/
def emailRun (rest : List Char) : List Char := rest.reverse.takeWhile emailTldChar

/-- Everything of the part after `@` before its trailing run. -/
def emailPre (rest : List Char) : List Char :=
  (rest.reverse.dropWhile emailTldChar).reverse

/-- The part after `@` is domain, dot, then a top-level domain of length at
least two that is the maximal trailing run of its class. -/
def emailRestOk (rest : List Char) : Bool :=
  decide (2 ≤ (emailRun rest).length) &&
    match (emailPre rest).getLast? with
    | some d =>
        (d == '.') && decide (2 ≤ (emailPre rest).length) &&
          ((emailPre rest).take ((emailPre rest).length - 1)).all emailDomChar
    | none => false

/-- `[A-Za-z0-9._%+-]+@[A-Za-z0-9.-]+\.[A-Z|a-z]{2,}` (email): split at the
first `@` (neither side of a match can contain another one). -/
def structEmail (t : List Char) : Bool :=
  match splitAtChar '@' t with
  | none => false
  | some (loc, rest) => (!loc.isEmpty) && loc.all emailLocChar && emailRestOk rest

/-- CI equality of two character lists (`re.IGNORECASE` literal comparison). -/
def ciEqB (u v : List Char) : Bool :=
  decide (u.map Char.toLower = v.map Char.toLower)

/-- The suffix alternation of the address pattern, in source order. -/
def addrSuffixes : List (List Char) :=
  ["Street".toList, "St".toList, "Avenue".toList, "Ave".toList,
   "Road".toList, "Rd".toList, "Boulevard".toList, "Blvd".toList,
   "Lane".toList, "Ln".toList, "Drive".toList, "Dr".toList]

/-- The middle of an address slice: after the leading digit run, before the
suffix of length `sfLen`. -/
def addrMid (t : List Char) (sfLen : ℕ) : List Char :=
  (t.take (t.length - sfLen)).drop ((t.takeWhile (fun d => d.isDigit)).length)

/-- Some suffix of the alternation closes the slice (CI) and the middle block
is letters and spaces, starts with a space, and has length at least two. -/
def addrBody (t : List Char) : Bool :=
  addrSuffixes.any fun sf =>
    decide (sf.length ≤ t.length) && ciEqB (t.drop (t.length - sf.length)) sf &&
      (decide (2 ≤ (addrMid t sf.length).length) &&
        (match (addrMid t sf.length).head? with
         | some m => pspace m
         | none => false) &&
        (addrMid t sf.length).all letterSpace)

/-- `\d+\s+[A-Za-z\s]+(?:Street|St|...|Dr)` (address). -/
def structAddr (t : List Char) : Bool :=
  match t with
  | [] => false
  | c :: _ => c.isDigit && addrBody t

def dobPref1 : List Char := "DOB".toList
def dobPref2 : List Char := "Date of Birth".toList
def dobPref3 : List Char := "Birth Date".toList

/-- The date part `\d{1,2}[⁄-]\d{1,2}[⁄-]` of the DOB pattern. -/
def parseDobDate (t : List Char) : Option (List Char) :=
  (eatDigits12 t).bind fun t1 =>
    (eatClass slashDash t1).bind fun t2 =>
      (eatDigits12 t2).bind fun t3 => eatClass slashDash t3

/-- After a recognized prefix: `[:\s]*\d{1,2}[⁄-]\d{1,2}[⁄-]\d{2,4}`. -/
def dobTail (r : List Char) : Bool :=
  match parseDobDate (r.dropWhile dobSepChar) with
  | some r5 =>
      decide (2 ≤ r5.length) && decide (r5.length ≤ 4) &&
        r5.all (fun c => c.isDigit)
  | none => false

/-- `(?:DOB|Date of Birth|Birth Date)[:\s]*\d{1,2}[⁄-]\d{1,2}[⁄-]\d{2,4}`. -/
def structDob (t : List Char) : Bool :=
  match matchPrefixCI dobPref1 t with
  | some r => dobTail r
  | none =>
    match matchPrefixCI dobPref2 t with
    | some r => dobTail r
    | none =>
      match matchPrefixCI dobPref3 t with
      | some r => dobTail r
      | none => false

/-! ### The pattern table (`pii_patterns`, in insertion order) -/

def ssnPat : PiiPattern :=
  ⟨fun b t bn => structSsn t && edgeOk b t bn, "[SSN_REDACTED]".toList⟩

def ccPat : PiiPattern :=
  ⟨fun b t bn => structCc t && edgeOk b t bn, "[CC_REDACTED]".toList⟩

def phonePat : PiiPattern :=
  ⟨fun b t bn => structPhone t && edgeOk b t bn, "[PHONE_REDACTED]".toList⟩

def emailPat : PiiPattern :=
  ⟨fun b t bn => structEmail t && edgeOk b t bn, "[EMAIL_REDACTED]".toList⟩

def addressPat : PiiPattern :=
  ⟨fun b t bn => structAddr t && edgeOk b t bn, "[ADDRESS_REDACTED]".toList⟩

def accountPat : PiiPattern :=
  ⟨fun b t bn => structAccount t && edgeOk b t bn, "[ACCOUNT_REDACTED]".toList⟩

def dobPat : PiiPattern :=
  ⟨fun b t bn => structDob t && edgeOk b t bn, "[DOB_REDACTED]".toList⟩

def piiPatternList : List PiiPattern :=
  [ssnPat, ccPat, phonePat, emailPat, addressPat, accountPat, dobPat]

theorem eats_bind_same {F G : List Char → Option (List Char)} {p : Char → Bool}
    (hF : Eats F p) (hG : Eats G p) : Eats (fun t => (F t).bind G) p :=
  eats_mono (eats_bind hF hG) (fun c h => by rwa [Bool.or_self] at h)

/-- Digits and dashes: the ssn alphabet. -/
def ssnClass (c : Char) : Bool := c.isDigit || c == '-'

theorem ssnClass_ne_bracket (c : Char) (h : ssnClass c = true) :
    c ≠ '[' ∧ c ≠ ']' := by
  refine ⟨fun h2 => ?_, fun h2 => ?_⟩ <;> subst h2 <;> exact absurd h (by decide)

/-- Digits and group separators: the credit-card alphabet. -/
def ccClass (c : Char) : Bool := c.isDigit || psep c

theorem ccClass_ne_bracket (c : Char) (h : ccClass c = true) :
    c ≠ '[' ∧ c ≠ ']' := by
  refine ⟨fun h2 => ?_, fun h2 => ?_⟩ <;> subst h2 <;> exact absurd h (by decide)

/-- Digits, parentheses and separators: the phone alphabet. -/
def phoneClass (c : Char) : Bool := c.isDigit || c == '(' || c == ')' || psep c

theorem phoneClass_ne_bracket (c : Char) (h : phoneClass c = true) :
    c ≠ '[' ∧ c ≠ ']' := by
  refine ⟨fun h2 => ?_, fun h2 => ?_⟩ <;> subst h2 <;> exact absurd h (by decide)

/-- Digits and slash-or-dash: the DOB date-part alphabet. -/
def dobDateClass (c : Char) : Bool := c.isDigit || slashDash c

theorem dobDateClass_ne_bracket (c : Char) (h : dobDateClass c = true) :
    c ≠ '[' ∧ c ≠ ']' := by
  refine ⟨fun h2 => ?_, fun h2 => ?_⟩ <;> subst h2 <;> exact absurd h (by decide)

theorem parseSsn_eats : Eats parseSsn ssnClass := by
  have hdig : ∀ n, Eats (eatDigits n) ssnClass := fun n =>
    eats_mono (eatDigits_eats n) (fun c h => by simp [ssnClass, h])
  have hdash : Eats (eatClass (fun c => c == '-')) ssnClass :=
    eats_mono (eatClass_eats _) (fun c h => by simp [ssnClass, h])
  exact eats_bind_same (hdig 3) (eats_bind_same hdash
    (eats_bind_same (hdig 2) (eats_bind_same hdash (hdig 4))))

theorem parseCc_eats : Eats parseCc ccClass := by
  have hdig : ∀ n, Eats (eatDigits n) ccClass := fun n =>
    eats_mono (eatDigits_eats n) (fun c h => by simp [ccClass, h])
  have hsep : Eats (fun t => some (eatIf psep t)) ccClass :=
    eats_mono (eatIf_eats psep) (fun c h => by simp [ccClass, h])
  exact eats_bind_same (hdig 4) (eats_bind_same hsep (eats_bind_same (hdig 4)
    (eats_bind_same hsep (eats_bind_same (hdig 4) (eats_bind_same hsep (hdig 4))))))

theorem parsePhone_eats : Eats parsePhone phoneClass := by
  have hdig : ∀ n, Eats (eatDigits n) phoneClass := fun n =>
    eats_mono (eatDigits_eats n) (fun c h => by simp [phoneClass, h])
  have hsep : Eats (fun t => some (eatIf psep t)) phoneClass :=
    eats_mono (eatIf_eats psep) (fun c h => by simp [phoneClass, h])
  have hop : Eats (fun t => some (eatIf (fun c => c == '(') t)) phoneClass :=
    eats_mono (eatIf_eats _) (fun c h => by simp [phoneClass, h])
  have hcl : Eats (fun t => some (eatIf (fun c => c == ')') t)) phoneClass :=
    eats_mono (eatIf_eats _) (fun c h => by simp [phoneClass, h])
  exact eats_bind_same hop (eats_bind_same (hdig 3) (eats_bind_same hcl
    (eats_bind_same hsep (eats_bind_same (hdig 3) (eats_bind_same hsep (hdig 4))))))

theorem parseDobDate_eats : Eats parseDobDate dobDateClass := by
  have hd12 : Eats eatDigits12 dobDateClass :=
    eats_mono eatDigits12_eats (fun c h => by simp [dobDateClass, h])
  have hsd : Eats (eatClass slashDash) dobDateClass :=
    eats_mono (eatClass_eats _) (fun c h => by simp [dobDateClass, h])
  exact eats_bind_same hd12 (eats_bind_same hsd (eats_bind_same hd12 hsd))

theorem structSsn_nb (t : List Char) (h : structSsn t = true) :
    ∀ c ∈ t, c ≠ '[' ∧ c ≠ ']' := by
  unfold structSsn at h
  rcases hp : parseSsn t with _ | r
  · rw [hp] at h; exact Bool.noConfusion h
  · rw [hp] at h
    have hr : r = [] := by
      rcases r with _ | ⟨x, r2⟩
      · rfl
      · exact Bool.noConfusion h
    subst hr
    rcases parseSsn_eats t [] hp with ⟨u, hu, hall⟩
    rw [List.append_nil] at hu
    subst hu
    exact fun c hc => ssnClass_ne_bracket c (hall c hc)

theorem structSsn_mark (t : List Char) (h : structSsn t = true) :
    ∃ c ∈ t, c.isDigit ∨ c = '@' := by
  unfold structSsn at h
  rcases hp : parseSsn t with _ | r
  · rw [hp] at h; exact Bool.noConfusion h
  · have hb : (eatDigits 3 t).bind (fun t1 =>
        (eatClass (fun c => c == '-') t1).bind fun t2 =>
          (eatDigits 2 t2).bind fun t3 =>
            (eatClass (fun c => c == '-') t3).bind fun t4 => eatDigits 4 t4) = some r := hp
    rcases Option.bind_eq_some.mp hb with ⟨t1, hm1, _⟩
    rcases eatDigits_split 3 t t1 hm1 with ⟨u, hu, hlen, hdig⟩
    rcases u with _ | ⟨c, u2⟩
    · simp at hlen
    · exact ⟨c, by rw [hu]; exact List.mem_append_left _ (List.mem_cons_self _ _),
        Or.inl (hdig c (List.mem_cons_self _ _))⟩

theorem structCc_nb (t : List Char) (h : structCc t = true) :
    ∀ c ∈ t, c ≠ '[' ∧ c ≠ ']' := by
  unfold structCc at h
  simp only [Bool.and_eq_true] at h
  rcases hp : parseCc t with _ | r
  · rw [hp] at h; exact Bool.noConfusion h.2
  · rw [hp] at h
    have hr : r = [] := by
      rcases r with _ | ⟨x, r2⟩
      · rfl
      · exact Bool.noConfusion h.2
    subst hr
    rcases parseCc_eats t [] hp with ⟨u, hu, hall⟩
    rw [List.append_nil] at hu
    subst hu
    exact fun c hc => ccClass_ne_bracket c (hall c hc)

theorem structCc_mark (t : List Char) (h : structCc t = true) :
    ∃ c ∈ t, c.isDigit ∨ c = '@' := by
  unfold structCc at h
  simp only [Bool.and_eq_true] at h
  rcases hp : parseCc t with _ | r
  · rw [hp] at h; exact Bool.noConfusion h.2
  · have hb : (eatDigits 4 t).bind (fun t1 =>
        (some (eatIf psep t1)).bind fun t2 =>
          (eatDigits 4 t2).bind fun t3 =>
            (some (eatIf psep t3)).bind fun t4 =>
              (eatDigits 4 t4).bind fun t5 =>
                (some (eatIf psep t5)).bind fun t6 => eatDigits 4 t6) = some r := hp
    rcases Option.bind_eq_some.mp hb with ⟨t1, hm1, _⟩
    rcases eatDigits_split 4 t t1 hm1 with ⟨u, hu, hlen, hdig⟩
    rcases u with _ | ⟨c, u2⟩
    · simp at hlen
    · exact ⟨c, by rw [hu]; exact List.mem_append_left _ (List.mem_cons_self _ _),
        Or.inl (hdig c (List.mem_cons_self _ _))⟩

theorem structPhone_nb (t : List Char) (h : structPhone t = true) :
    ∀ c ∈ t, c ≠ '[' ∧ c ≠ ']' := by
  unfold structPhone at h
  rcases hp : parsePhone t with _ | r
  · rw [hp] at h; exact Bool.noConfusion h
  · rw [hp] at h
    have hr : r = [] := by
      rcases r with _ | ⟨x, r2⟩
      · rfl
      · exact Bool.noConfusion h
    subst hr
    rcases parsePhone_eats t [] hp with ⟨u, hu, hall⟩
    rw [List.append_nil] at hu
    subst hu
    exact fun c hc => phoneClass_ne_bracket c (hall c hc)

theorem structPhone_mark (t : List Char) (h : structPhone t = true) :
    ∃ c ∈ t, c.isDigit ∨ c = '@' := by
  unfold structPhone at h
  rcases hp : parsePhone t with _ | r
  · rw [hp] at h; exact Bool.noConfusion h
  · have hb : (some (eatIf (fun c => c == '(') t)).bind (fun t1 =>
        (eatDigits 3 t1).bind fun t2 =>
          (some (eatIf (fun c => c == ')') t2)).bind fun t3 =>
            (some (eatIf psep t3)).bind fun t4 =>
              (eatDigits 3 t4).bind fun t5 =>
                (some (eatIf psep t5)).bind fun t6 => eatDigits 4 t6) = some r := hp
    rcases Option.bind_eq_some.mp hb with ⟨t1, hm1, hb2⟩
    rcases Option.bind_eq_some.mp hb2 with ⟨t2, hm2, _⟩
    rcases eatDigits_split 3 t1 t2 hm2 with ⟨u, hu, hlen, hdig⟩
    rcases u with _ | ⟨c, u2⟩
    · simp at hlen
    · have ht1 : t1 = eatIf (fun c => c == '(') t := by
        injection hm1 with hm1e
        exact hm1e.symm
      rcases eatIf_split (fun c => c == '(') t with ⟨u0, hu0, _⟩
      refine ⟨c, ?_, Or.inl (hdig c (List.mem_cons_self _ _))⟩
      rw [hu0, ← ht1, hu]
      exact List.mem_append_right _ (List.mem_append_left _ (List.mem_cons_self _ _))

theorem structAccount_nb (t : List Char) (h : structAccount t = true) :
    ∀ c ∈ t, c ≠ '[' ∧ c ≠ ']' := by
  unfold structAccount at h
  simp only [Bool.and_eq_true, List.all_eq_true] at h
  exact fun c hc => isDigit_ne_bracket c (h.2 c hc)

theorem structAccount_mark (t : List Char) (h : structAccount t = true) :
    ∃ c ∈ t, c.isDigit ∨ c = '@' := by
  unfold structAccount at h
  simp only [Bool.and_eq_true, List.all_eq_true, decide_eq_true_eq] at h
  rcases t with _ | ⟨c, t2⟩
  · simp at h
  · exact ⟨c, List.mem_cons_self _ _, Or.inl (h.2 c (List.mem_cons_self _ _))⟩

theorem ssnPat_facts : PatternFacts ssnPat :=
  patternFacts_of_struct ssnPat structSsn (fun _ _ _ => rfl) structSsn_nb structSsn_mark
    ⟨"SSN_REDACTED".toList, by decide, by decide⟩

theorem ccPat_facts : PatternFacts ccPat :=
  patternFacts_of_struct ccPat structCc (fun _ _ _ => rfl) structCc_nb structCc_mark
    ⟨"CC_REDACTED".toList, by decide, by decide⟩

theorem phonePat_facts : PatternFacts phonePat :=
  patternFacts_of_struct phonePat structPhone (fun _ _ _ => rfl) structPhone_nb
    structPhone_mark ⟨"PHONE_REDACTED".toList, by decide, by decide⟩

theorem accountPat_facts : PatternFacts accountPat :=
  patternFacts_of_struct accountPat structAccount (fun _ _ _ => rfl) structAccount_nb
    structAccount_mark ⟨"ACCOUNT_REDACTED".toList, by decide, by decide⟩

/-! ### Email facts -/

theorem emailPre_append (rest : List Char) :
    rest = emailPre rest ++ (emailRun rest).reverse := by
  have h1 : emailRun rest ++ rest.reverse.dropWhile emailTldChar = rest.reverse :=
    List.takeWhile_append_dropWhile _ _
  calc rest = rest.reverse.reverse := (List.reverse_reverse rest).symm
    _ = (emailRun rest ++ rest.reverse.dropWhile emailTldChar).reverse := by rw [h1]
    _ = (rest.reverse.dropWhile emailTldChar).reverse ++ (emailRun rest).reverse :=
        List.reverse_append _ _

theorem emailRestOk_nb (rest : List Char) (h : emailRestOk rest = true) :
    ∀ c ∈ rest, c ≠ '[' ∧ c ≠ ']' := by
  unfold emailRestOk at h
  simp only [Bool.and_eq_true, decide_eq_true_eq] at h
  obtain ⟨hrun2, hm⟩ := h
  rcases hg : (emailPre rest).getLast? with _ | d
  · rw [hg] at hm; exact Bool.noConfusion hm
  · rw [hg] at hm
    simp only [Bool.and_eq_true, beq_iff_eq, decide_eq_true_eq, List.all_eq_true] at hm
    obtain ⟨⟨hd, hlen⟩, hdom⟩ := hm
    rcases List.eq_nil_or_concat (emailPre rest) with hnil | ⟨ys, y, hys⟩
    · rw [hnil] at hg; exact Option.noConfusion hg
    · rw [List.concat_eq_append] at hys
      have hy : y = d := by
        rw [hys, List.getLast?_concat] at hg
        injection hg
      intro c hc
      have hc2 : c ∈ emailPre rest ++ (emailRun rest).reverse := by
        rw [← emailPre_append rest]
        exact hc
      rcases List.mem_append.mp hc2 with hpre | hrun
      · rw [hys] at hpre
        rcases List.mem_append.mp hpre with hys2 | hy2
        · have hys3 : (emailPre rest).take ((emailPre rest).length - 1) = ys := by
            rw [hys, List.length_append, List.length_singleton, Nat.add_sub_cancel]
            exact List.take_left ys [y]
          refine emailDomChar_ne_bracket c (hdom c ?_)
          rw [hys3]
          exact hys2
        · have hcy : c = y := List.mem_singleton.mp hy2
          rw [hcy, hy, hd]
          exact ⟨by decide, by decide⟩
      · exact emailTldChar_ne_bracket c
          (List.mem_takeWhile_imp (List.mem_reverse.mp hrun))

theorem structEmail_nb (t : List Char) (h : structEmail t = true) :
    ∀ c ∈ t, c ≠ '[' ∧ c ≠ ']' := by
  unfold structEmail at h
  rcases hs : splitAtChar '@' t with _ | ⟨loc, rest⟩
  · rw [hs] at h; exact Bool.noConfusion h
  · rw [hs] at h
    simp only [Bool.and_eq_true, List.all_eq_true] at h
    obtain ⟨⟨hne, hloc⟩, hrest⟩ := h
    have ht := splitAtChar_eq '@' t loc rest hs
    intro c hc
    rw [ht] at hc
    rcases List.mem_append.mp hc with hl | hr
    · exact emailLocChar_ne_bracket c (hloc c hl)
    · rcases List.mem_cons.mp hr with rfl | hr2
      · exact ⟨by decide, by decide⟩
      · exact emailRestOk_nb rest hrest c hr2

theorem structEmail_mark (t : List Char) (h : structEmail t = true) :
    ∃ c ∈ t, c.isDigit ∨ c = '@' := by
  unfold structEmail at h
  rcases hs : splitAtChar '@' t with _ | ⟨loc, rest⟩
  · rw [hs] at h; exact Bool.noConfusion h
  · have ht := splitAtChar_eq '@' t loc rest hs
    refine ⟨'@', ?_, Or.inr rfl⟩
    rw [ht]
    exact List.mem_append_right _ (List.mem_cons_self _ _)

/-! ### Address facts -/

theorem take_takeWhile_length (p : Char → Bool) :
    ∀ l : List Char, l.take (l.takeWhile p).length = l.takeWhile p := by
  intro l
  induction l with
  | nil => rfl
  | cons c l ih =>
      by_cases hc : p c = true
      · simp only [List.takeWhile_cons, if_pos hc, List.length_cons, List.take_succ_cons]
        rw [ih]
      · simp only [List.takeWhile_cons, if_neg hc, List.length_nil, List.take_zero]

theorem addrSuffix_chars :
    ∀ sf ∈ addrSuffixes, ∀ x ∈ sf, x.toLower ≠ '[' ∧ x.toLower ≠ ']' := by decide

theorem addrBody_elim (t : List Char) (h : addrBody t = true) :
    ∃ sf ∈ addrSuffixes,
      ciEqB (t.drop (t.length - sf.length)) sf = true ∧
        (addrMid t sf.length).all letterSpace = true := by
  unfold addrBody at h
  rcases List.any_eq_true.mp h with ⟨sf, hsf, hf⟩
  simp only [Bool.and_eq_true, decide_eq_true_eq] at hf
  exact ⟨sf, hsf, hf.1.2, hf.2.2⟩

theorem ciEqB_chars (u v : List Char) (h : ciEqB u v = true) :
    ∀ c ∈ u, ∃ x ∈ v, c.toLower = x.toLower := by
  unfold ciEqB at h
  rw [decide_eq_true_eq] at h
  intro c hc
  have : c.toLower ∈ v.map Char.toLower := by
    rw [← h]
    exact List.mem_map.mpr ⟨c, hc, rfl⟩
  rcases List.mem_map.mp this with ⟨x, hx, hxe⟩
  exact ⟨x, hx, hxe.symm⟩

theorem structAddr_nb (t : List Char) (h : structAddr t = true) :
    ∀ c ∈ t, c ≠ '[' ∧ c ≠ ']' := by
  have hbody : addrBody t = true := by
    unfold structAddr at h
    rcases ht : t with _ | ⟨c0, t2⟩
    · rw [ht] at h
      exact Bool.noConfusion h
    · rw [ht] at h
      replace h : (c0.isDigit && addrBody (c0 :: t2)) = true := h
      simp only [Bool.and_eq_true] at h
      exact h.2
  rcases addrBody_elim t hbody with ⟨sf, hsf, hci, hmid⟩
  intro c hc
  have hc2 : c ∈ t.take (t.length - sf.length) ++ t.drop (t.length - sf.length) := by
    rw [List.take_append_drop]
    exact hc
  rcases List.mem_append.mp hc2 with htk | hdr
  · have hc3 : c ∈ (t.take (t.length - sf.length)).take
        ((t.takeWhile (fun d => d.isDigit)).length) ++
        (t.take (t.length - sf.length)).drop
          ((t.takeWhile (fun d => d.isDigit)).length) := by
      rw [List.take_append_drop]
      exact htk
    rcases List.mem_append.mp hc3 with hpre | hm
    · rw [List.take_take] at hpre
      have hsub : t.take ((t.takeWhile (fun d => d.isDigit)).length ⊓
          (t.length - sf.length)) ⊆
          t.take ((t.takeWhile (fun d => d.isDigit)).length) := by
        intro x hx
        have he : t.take ((t.takeWhile (fun d => d.isDigit)).length ⊓
            (t.length - sf.length)) =
            (t.take ((t.takeWhile (fun d => d.isDigit)).length)).take
              ((t.takeWhile (fun d => d.isDigit)).length ⊓ (t.length - sf.length)) := by
          rw [List.take_take]
          congr 1
          omega
        rw [he] at hx
        exact List.take_subset _ _ hx
      have hc4 := hsub hpre
      rw [take_takeWhile_length] at hc4
      exact isDigit_ne_bracket c (List.mem_takeWhile_imp hc4)
    · exact letterSpace_ne_bracket c ((List.all_eq_true.mp hmid) c hm)
  · rcases ciEqB_chars _ sf hci c hdr with ⟨x, hx, hxe⟩
    rcases addrSuffix_chars sf hsf x hx with ⟨hx1, hx2⟩
    exact toLower_ne_bracket c x hxe hx1 hx2

theorem structAddr_mark (t : List Char) (h : structAddr t = true) :
    ∃ c ∈ t, c.isDigit ∨ c = '@' := by
  unfold structAddr at h
  rcases ht : t with _ | ⟨c0, t2⟩
  · rw [ht] at h
    exact Bool.noConfusion h
  · rw [ht] at h
    replace h : (c0.isDigit && addrBody (c0 :: t2)) = true := h
    simp only [Bool.and_eq_true] at h
    exact ⟨c0, List.mem_cons_self _ _, Or.inl h.1⟩

/-! ### Date-of-birth facts -/

theorem dobPref_chars :
    ∀ q ∈ [dobPref1, dobPref2, dobPref3], ∀ x ∈ q,
      x.toLower ≠ '[' ∧ x.toLower ≠ ']' := by decide

theorem structDob_elim (t : List Char) (h : structDob t = true) :
    ∃ p ∈ [dobPref1, dobPref2, dobPref3], ∃ r,
      matchPrefixCI p t = some r ∧ dobTail r = true := by
  unfold structDob at h
  rcases h1 : matchPrefixCI dobPref1 t with _ | r
  · rw [h1] at h
    rcases h2 : matchPrefixCI dobPref2 t with _ | r
    · rw [h2] at h
      rcases h3 : matchPrefixCI dobPref3 t with _ | r
      · rw [h3] at h; exact Bool.noConfusion h
      · rw [h3] at h; exact ⟨dobPref3, by simp, r, h3, h⟩
    · rw [h2] at h; exact ⟨dobPref2, by simp, r, h2, h⟩
  · rw [h1] at h; exact ⟨dobPref1, by simp, r, h1, h⟩

theorem dobTail_elim (r : List Char) (h : dobTail r = true) :
    ∃ r5, parseDobDate (r.dropWhile dobSepChar) = some r5 ∧
      ∀ c ∈ r5, c.isDigit = true := by
  unfold dobTail at h
  rcases hp : parseDobDate (r.dropWhile dobSepChar) with _ | r5
  · rw [hp] at h; exact Bool.noConfusion h
  · rw [hp] at h
    simp only [Bool.and_eq_true, List.all_eq_true, decide_eq_true_eq] at h
    exact ⟨r5, rfl, h.2⟩

theorem structDob_nb (t : List Char) (h : structDob t = true) :
    ∀ c ∈ t, c ≠ '[' ∧ c ≠ ']' := by
  rcases structDob_elim t h with ⟨p, hp, r, hm, htail⟩
  rcases matchPrefixCI_split p t r hm with ⟨u, hu, hci⟩
  rcases dobTail_elim r htail with ⟨r5, hpd, hr5⟩
  rcases parseDobDate_eats _ r5 hpd with ⟨u2, hu2, hcls⟩
  intro c hc
  rw [hu] at hc
  rcases List.mem_append.mp hc with hcu | hcr
  · rcases hci c hcu with ⟨x, hx, hxe⟩
    rcases dobPref_chars p hp x hx with ⟨hx1, hx2⟩
    exact toLower_ne_bracket c x hxe hx1 hx2
  · have hcr2 : c ∈ r.takeWhile dobSepChar ++ r.dropWhile dobSepChar := by
      rw [List.takeWhile_append_dropWhile]
      exact hcr
    rcases List.mem_append.mp hcr2 with hsep | hdp
    · exact dobSepChar_ne_bracket c (List.mem_takeWhile_imp hsep)
    · rw [hu2] at hdp
      rcases List.mem_append.mp hdp with hcu2 | hc5
      · exact dobDateClass_ne_bracket c (hcls c hcu2)
      · exact isDigit_ne_bracket c (hr5 c hc5)

theorem structDob_mark (t : List Char) (h : structDob t = true) :
    ∃ c ∈ t, c.isDigit ∨ c = '@' := by
  rcases structDob_elim t h with ⟨p, hp, r, hm, htail⟩
  rcases matchPrefixCI_split p t r hm with ⟨u, hu, _⟩
  rcases dobTail_elim r htail with ⟨r5, hpd, _⟩
  have hb : (eatDigits12 (r.dropWhile dobSepChar)).bind (fun t1 =>
      (eatClass slashDash t1).bind fun t2 =>
        (eatDigits12 t2).bind fun t3 => eatClass slashDash t3) = some r5 := hpd
  rcases Option.bind_eq_some.mp hb with ⟨t1, hm1, _⟩
  rcases eatDigits12_split _ t1 hm1 with ⟨c, u1, he, hdig, _⟩
  refine ⟨c, ?_, Or.inl hdig⟩
  rw [hu]
  refine List.mem_append_right _ ?_
  have : c ∈ r.dropWhile dobSepChar := by
    rw [he]
    exact List.mem_append_left _ (List.mem_cons_self _ _)
  have hcr : c ∈ r.takeWhile dobSepChar ++ r.dropWhile dobSepChar :=
    List.mem_append_right _ this
  rwa [List.takeWhile_append_dropWhile] at hcr

theorem emailPat_facts : PatternFacts emailPat :=
  patternFacts_of_struct emailPat structEmail (fun _ _ _ => rfl) structEmail_nb
    structEmail_mark ⟨"EMAIL_REDACTED".toList, by decide, by decide⟩

theorem addressPat_facts : PatternFacts addressPat :=
  patternFacts_of_struct addressPat structAddr (fun _ _ _ => rfl) structAddr_nb
    structAddr_mark ⟨"ADDRESS_REDACTED".toList, by decide, by decide⟩

theorem dobPat_facts : PatternFacts dobPat :=
  patternFacts_of_struct dobPat structDob (fun _ _ _ => rfl) structDob_nb
    structDob_mark ⟨"DOB_REDACTED".toList, by decide, by decide⟩

theorem piiPatternList_facts : ∀ P ∈ piiPatternList, PatternFacts P := by
  intro P hP
  simp only [piiPatternList, List.mem_cons, List.not_mem_nil, or_false] at hP
  rcases hP with rfl | rfl | rfl | rfl | rfl | rfl | rfl
  exacts [ssnPat_facts, ccPat_facts, phonePat_facts, emailPat_facts,
    addressPat_facts, accountPat_facts, dobPat_facts]

/-- **C8.** Redaction is idempotent: for every case input, applying the PII
detect-and-redact transformation (`_detect_pii` with the seven `pii_patterns`
of `compliance.py`, each `re.sub` replacing matches by its bracketed token)
to an already-redacted case changes nothing:
`redact (redact c) = redact c`.  The proof rests on the token analysis (no
replacement token, nor any text around it, is itself matched by any PII
pattern, since every match needs a digit or `@` and must keep clear of the
brackets). -/
theorem redaction_idempotent (c : PyCase) :
    detectRedact piiPatternList (detectRedact piiPatternList c) =
      detectRedact piiPatternList c :=
  detectRedact_idem piiPatternList piiPatternList_facts c

end ClaimsTriage
